import Mathlib

/-!
Shallow embedding of the al-farahidi lexer-generator front end: the regex
specification parser (`src/unnamed/part_000`) and the Thompson NFA
construction engine (`src/src/nfa.c`), together with theorems settling the
frozen claims about them.

Modelling conventions:
* C strings are `List Char`; the end of a list plays the role of the
  terminating NUL byte (`peekc [] = '\x00'`).
* The fixed-capacity arenas are modelled as growing lists; an allocation
  appends and returns the pre-append length, exactly the pool-cursor
  behaviour of the C code.  Arena-overflow asserts that gate the logic are
  modelled as error values; the claims under study stay far below every
  capacity bound.
* `fatal_error` (which prints `Error LINE:COL:` and exits) is modelled by
  `Except.error` carrying the error kind and the scanner position at
  detection; a failing C `assert` is modelled by its own error kind, since
  it aborts through a different mechanism with a different message.
* Pointer-typed operand slots (`void *op1`) are modelled by a sum `Slot`
  that records which arena the offset addresses, following the tagged
  dispatch the NFA builder performs on `op1Type`/`op2Type`.
-/

deriving instance DecidableEq for Except

namespace AlFarahidi

/-- Byte read through a C `char *`: the end of the remaining-line list is
the NUL terminator of the `fgets` buffer. -/
def peekc (l : List Char) : Char := l.headD '\x00'

/-- C `isspace` for the ASCII execution character set. -/
def c_isspace (c : Char) : Bool :=
  c = ' ' || c = '\t' || c = '\n' || c = '\x0b' || c = '\x0c' || c = '\r'

/-- OperatorType from regex.h. -/
inductive OperatorType where
  | noOp | orOp | andOp | zeroOrMore
  deriving Repr, DecidableEq

/-- Operand-slot tag as used by the parser variant in part_000
(`NESTED_EXPRESSION`, `LEAF_OPERATOR`, `NOTHING`). -/
inductive OperandTag where
  | nestedExpression | leafOperator | nothingTag
  deriving Repr, DecidableEq

/-- Reference to an expression node: part_000 threads raw pointers which
either address a slot of the expression pool or the head `Expression`
embedded in a `NonTerminal` record. -/
inductive ExprRef where
  | head (i : Nat)
  | pool (k : Nat)
  deriving Repr, DecidableEq

/-- Value stored in an operand slot.  In C this is a single `void *` that
may address the terminal pool, a `NonTerminal`, an `Expression`, or be
`NULL`; the builder disambiguates through the tag, which the sum makes
explicit. -/
inductive Slot where
  | term (off : Nat)
  | nonterm (i : Nat)
  | expr (r : ExprRef)
  | null
  deriving Repr, DecidableEq

/-- Expression node (struct Expression). -/
structure Expression where
  op1 : Slot
  op2 : Slot
  op1Type : OperandTag
  op2Type : OperandTag
  type : OperatorType
  deriving Repr, DecidableEq

/-- Zero-initialised expression node, the state of a static-array slot
before any field is written (`NESTED_EXPRESSION` and `NO_OP` are the
zero enumerators, `NULL` the zero pointer). -/
def Expression.init : Expression :=
  ⟨Slot.null, Slot.null, OperandTag.nestedExpression, OperandTag.nestedExpression,
   OperatorType.noOp⟩

instance : Inhabited Expression := ⟨Expression.init⟩

/-- Non-terminal record (struct NonTerminal of the part_000 variant: the
defining expression's head node is embedded in the record). -/
structure NonTerminal where
  name : List Char
  headExpr : Expression
  complete : Bool
  idx : Nat
  deriving Repr, DecidableEq

instance : Inhabited NonTerminal := ⟨⟨[], Expression.init, false, 0⟩⟩

/-- Error kinds.  The first five correspond to `fatal_error` sites (which
print `Error LINE:COL:` and exit); the `assert...` kinds correspond to
failing C `assert`s, which abort through a different mechanism. -/
inductive PError where
  | malformedHeader (line col : Nat)
  | emptyName (line col : Nat)
  | missingDefinition (line col : Nat)
  | redefinition (line col : Nat)
  | danglingOperator (line col : Nat)
  | incompleteEscape (line col : Nat)
  | assertLastExprNoOp (line col : Nat)
  | assertNameTooLong (line col : Nat)
  | assertNontermsFull (line col : Nat)
  | assertTermPoolFull (line col : Nat)
  | assertExprPoolFull (line col : Nat)
  | outOfFuel
  deriving Repr, DecidableEq

/-- Parser state: the three arenas of the specification parser plus the
scanner position. -/
structure PState where
  nonterms : List NonTerminal
  termPool : List Char
  exprPool : List Expression
  line : Nat
  col : Nat
  deriving Repr, DecidableEq

/-- Consume the longest run of `isspace` bytes that are not newlines
(the loop guarding parse_operand and parse_operator); returns the count
consumed and the rest. -/
def skipSpacesNotNl (l : List Char) : Nat × List Char :=
  let t := l.takeWhile (fun c => c_isspace c && c != '\n')
  (t.length, l.drop t.length)

/-- Consume the longest run of `isspace` bytes, newlines included (the
loops in parse_regex and parse_header). -/
def skipAllSpace (l : List Char) : Nat × List Char :=
  let t := l.takeWhile (fun c => c_isspace c)
  (t.length, l.drop t.length)

/-- memcpy2 (part_000, lines 316-351): copy `numBytes` loop iterations
from `src`, treating `@` as the escape lead.  The C routine looks the
escaped character up in its tables and computes the replacement into the
local `c`, but then stores `*src` (the raw character following `@`), so
the table result is dead; the translation reproduces that store.  Each
escape consumes one extra source byte without an extra loop-count
decrement, so the loop reads one byte beyond the operand per escape.
Returns the bytes written to `dest` and the number of escapes taken
(`copied = numBytes - escapes`), or the incomplete-escape fatal error. -/
def memcpy2 (line col : Nat) : List Char → Nat → Except PError (List Char × Nat)
  | _, 0 => Except.ok ([], 0)
  | src, Nat.succ m =>
    if peekc src = '@' then
      if m = 0 then
        Except.error (PError.incompleteEscape line col)
      else
        let src1 := src.drop 1
        let cc := peekc src1
        match memcpy2 line col (src1.drop 1) m with
        | Except.error e => Except.error e
        | Except.ok (rest, esc) => Except.ok (cc :: rest, esc + 1)
    else
      match memcpy2 line col (src.drop 1) m with
      | Except.error e => Except.error e
      | Except.ok (rest, esc) => Except.ok (peekc src :: rest, esc)

/-- First `k` bytes at a non-terminal record's name field: the stored
name followed by the NUL padding of the fixed 64-byte array.  This is what
`memcmp(nonterms[i].name, operandStart, operandNameSize)` inspects. -/
def nameBytes (name : List Char) (k : Nat) : List Char :=
  (name ++ List.replicate k '\x00').take k

/-- Length-limited comparison performed by parse_operand's lookup loop:
`memcmp` over exactly the operand's own byte count. -/
def operandNameMatch (name ob : List Char) : Bool :=
  nameBytes name ob.length == ob

/-- Lookup loop of parse_operand (lines 250-255): first table index whose
name matches the operand bytes under the length-limited comparison. -/
def nontermFind (nts : List NonTerminal) (ob : List Char) : Option Nat :=
  go nts 0
where
  go : List NonTerminal → Nat → Option Nat
    | [], _ => none
    | nt :: rest, i => if operandNameMatch nt.name ob then some i else go rest (i + 1)

/-- Result of parse_operand: the operand slot (none at end of line), the
possibly extended non-terminal table and terminal pool, the updated
column, and the rest of the line. -/
structure OperandOut where
  op : Option Slot
  nonterms : List NonTerminal
  termPool : List Char
  col : Nat
  rest : List Char
  deriving Repr, DecidableEq

/-- Maximum capacities from regex.h. -/
def MAX_NONTERMS : Nat := 256
def MAX_TOTAL_TERM_LEN : Nat := 8192
def MAX_NONTERM_NAME : Nat := 64
def MAX_NESTED_EXPRS : Nat := 4 * MAX_NONTERMS

/-- parse_operand (part_000, lines 215-278).  Skips intra-line
whitespace; yields `none` at end of line; a leading `|` or `*` is the
dangling-operator fatal error.  Otherwise scans a maximal non-space run,
pushes a trailing `*` back unless the byte before it is `@`, and either
resolves/creates a non-terminal (operand starts with `$`) or decodes the
run through memcpy2 into the terminal pool. -/
def parse_operand (line : Nat) (nts : List NonTerminal) (tp : List Char)
    (col : Nat) (l : List Char) : Except PError OperandOut :=
  let s1 := skipSpacesNotNl l
  let col := col + s1.1
  let l := s1.2
  if peekc l = '\x00' || peekc l = '\n' then
    Except.ok ⟨none, nts, tp, col, l⟩
  else if peekc l = '|' || peekc l = '*' then
    Except.error (PError.danglingOperator line col)
  else
    let run := l.takeWhile (fun c => c != '\x00' && !(c_isspace c))
    -- trailing-closure pushback: `*(p-1) == '*' && *(p-2) != '@'`.  A run
    -- of length 1 cannot end in `*` (a leading `*` errored above), so the
    -- two inspected bytes always lie inside the run.
    let ob := if run.getLastD '\x00' = '*' && run.getD (run.length - 2) '\x00' != '@'
              then run.dropLast else run
    let col := col + ob.length
    let rest := l.drop ob.length
    if peekc ob = '$' then
      if ob.length = 1 then
        Except.error (PError.emptyName line col)
      else
        match nontermFind nts ob with
        | some i => Except.ok ⟨some (Slot.nonterm i), nts, tp, col, rest⟩
        | none =>
          if nts.length + 1 ≥ MAX_NONTERMS then
            Except.error (PError.assertNontermsFull line col)
          else
            let nt : NonTerminal := ⟨ob, Expression.init, false, nts.length⟩
            Except.ok ⟨some (Slot.nonterm nts.length), nts ++ [nt], tp, col, rest⟩
    else
      if tp.length + ob.length > MAX_TOTAL_TERM_LEN then
        Except.error (PError.assertTermPoolFull line col)
      else
        match memcpy2 line col l ob.length with
        | Except.error e => Except.error e
        | Except.ok (out, esc) =>
          -- `currentTermStart[size] = '\0'` writes the NUL at the copied
          -- count; the cursor then advances by the RAW operand size + 1,
          -- leaving the still-zero pool bytes in between untouched.
          let seg := (out ++ ['\x00']).set (ob.length - esc) '\x00'
          Except.ok ⟨some (Slot.term tp.length), nts, tp ++ seg, col, rest⟩

/-- parse_operator (part_000, lines 280-302). -/
def parse_operator (col : Nat) (l : List Char) : OperatorType × Nat × List Char :=
  let s1 := skipSpacesNotNl l
  let col := col + s1.1
  let l := s1.2
  if peekc l = '\n' || peekc l = '\x00' then
    (OperatorType.noOp, col, l)
  else if peekc l = '|' then
    (OperatorType.orOp, col + 1, l.drop 1)
  else if peekc l = '*' then
    (OperatorType.zeroOrMore, col + 1, l.drop 1)
  else
    (OperatorType.andOp, col, l)

/-- Dereference an expression pointer (into the pool or a non-terminal's
embedded head node). -/
def getExpr (s : PState) : ExprRef → Expression
  | ExprRef.head i => (s.nonterms.getD i default).headExpr
  | ExprRef.pool k => s.exprPool.getD k default

/-- Store through an expression pointer. -/
def setExpr (s : PState) : ExprRef → Expression → PState
  | ExprRef.head i, e =>
    { s with nonterms :=
        s.nonterms.set i { s.nonterms.getD i default with headExpr := e } }
  | ExprRef.pool k, e => { s with exprPool := s.exprPool.set k e }

/-- One iteration step of parse_body's operand loop plus its exit path
(part_000, lines 153-213).  `prevRef`/`curRef` model the `prevExpr` and
`currentExpr` pointers; the expression-pool cursor is the pool list's
length.  On loop exit the asserted last-expression shape is checked, the
speculatively allocated node is returned to the pool and the dangling
`op2` of the final node is nulled — its `op2Type` is not touched. -/
def parse_body_loop (lineNo : Nat) :
    Nat → PState → List Char → ExprRef → ExprRef → Except PError (PState × List Char)
  | 0, _, _, _, _ => Except.error PError.outOfFuel
  | Nat.succ fuel, s, l, prevRef, curRef =>
    match parse_operand lineNo s.nonterms s.termPool s.col l with
    | Except.error e => Except.error e
    | Except.ok o =>
      let s := { s with nonterms := o.nonterms, termPool := o.termPool, col := o.col }
      match o.op with
      | none =>
        let pe := getExpr s prevRef
        if pe.type = OperatorType.noOp || pe.type = OperatorType.zeroOrMore then
          let s := { s with exprPool := s.exprPool.dropLast }
          let s := setExpr s prevRef { getExpr s prevRef with op2 := Slot.null }
          Except.ok (s, o.rest)
        else
          Except.error (PError.assertLastExprNoOp s.line s.col)
      | some op =>
        let po := parse_operator s.col o.rest
        let opCode := po.1
        let s := { s with col := po.2.1 }
        let l := po.2.2
        let s := setExpr s curRef
          { getExpr s curRef with type := opCode, op1 := op, op1Type := OperandTag.leafOperator }
        let closureStep : Except PError (PState × List Char × ExprRef) :=
          match opCode with
          | OperatorType.zeroOrMore =>
            let s := setExpr s curRef
              { getExpr s curRef with op2 := Slot.null, op2Type := OperandTag.nothingTag }
            if s.exprPool.length ≥ MAX_NESTED_EXPRS then
              Except.error (PError.assertExprPoolFull s.line s.col)
            else
              let newIdx := s.exprPool.length
              let po2 := parse_operator s.col l
              let s := { s with col := po2.2.1, exprPool := s.exprPool ++ [Expression.init] }
              let s := setExpr s (ExprRef.pool newIdx)
                { getExpr s (ExprRef.pool newIdx) with
                    type := po2.1, op1 := Slot.expr curRef,
                    op1Type := OperandTag.nestedExpression }
              let s := setExpr s prevRef
                { getExpr s prevRef with
                    op2 := Slot.expr (ExprRef.pool newIdx),
                    op2Type := OperandTag.nestedExpression }
              Except.ok (s, po2.2.2, ExprRef.pool newIdx)
          | _ => Except.ok (s, l, curRef)
        match closureStep with
        | Except.error e => Except.error e
        | Except.ok (s, l, cur) =>
          -- unconditional tail of the loop body: speculatively allocate
          -- the successor node, thread it through op2, shift the cursors
          if s.exprPool.length ≥ MAX_NESTED_EXPRS then
            Except.error (PError.assertExprPoolFull s.line s.col)
          else
            let newIdx := s.exprPool.length
            let s := { s with exprPool := s.exprPool ++ [Expression.init] }
            let s := setExpr s cur
              { getExpr s cur with
                  op2 := Slot.expr (ExprRef.pool newIdx),
                  op2Type := OperandTag.nestedExpression }
            parse_body_loop lineNo fuel s l cur (ExprRef.pool newIdx)

/-- parse_body (part_000, lines 153-213): run the operand loop starting
with both expression cursors on the non-terminal's embedded head node. -/
def parse_body (s : PState) (l : List Char) (nontermIdx : Nat) :
    Except PError (PState × List Char) :=
  parse_body_loop s.line (l.length + 2) s l (ExprRef.head nontermIdx) (ExprRef.head nontermIdx)

/-- Exact-name lookup loop of parse_header (lines 112-121): first index
whose stored name `strcmp`-equals the header name; reports whether that
entry is already complete. -/
def headerFind (nts : List NonTerminal) (name : List Char) : Option (Nat × Bool) :=
  go nts 0
where
  go : List NonTerminal → Nat → Option (Nat × Bool)
    | [], _ => none
    | nt :: rest, i => if nt.name = name then some (i, nt.complete) else go rest (i + 1)

/-- parse_header (part_000, lines 78-151).  Requires a leading `$`,
scans the (non-empty) name, enforces single definition, reuses an
incomplete stub or allocates a fresh record, and consumes `:=` plus the
whitespace before a non-empty body. -/
def parse_header (s : PState) (l : List Char) : Except PError (Nat × PState × List Char) :=
  if peekc l ≠ '$' then
    Except.error (PError.malformedHeader s.line s.col)
  else
    let nameRun := '$' :: (l.drop 1).takeWhile (fun c => c != '\x00' && !(c_isspace c))
    let sz := nameRun.length
    let col := s.col + sz
    let l := l.drop sz
    if sz = 1 then
      Except.error (PError.emptyName s.line col)
    else if peekc l = '\x00' || peekc l = '\n' then
      Except.error (PError.missingDefinition s.line col)
    else if sz > MAX_NONTERM_NAME then
      Except.error (PError.assertNameTooLong s.line col)
    else
      match headerFind s.nonterms nameRun with
      | some (_, true) => Except.error (PError.redefinition s.line col)
      | found =>
        match
          match found with
          | some (i, _) => Except.ok (i, s.nonterms)
          | none =>
            if s.nonterms.length + 1 ≥ MAX_NONTERMS then
              Except.error (PError.assertNontermsFull s.line col)
            else
              Except.ok (s.nonterms.length,
                s.nonterms ++ [(⟨[], Expression.init, false, 0⟩ : NonTerminal)])
        with
        | Except.error e => Except.error e
        | Except.ok (idx, nts) =>
          -- strcpy of the name and the idx store (lines 129-130)
          let nts := nts.set idx
            { nts.getD idx default with name := nameRun, idx := idx }
          let sp := skipAllSpace l
          let col := col + sp.1
          let l := sp.2
          if peekc l ≠ ':' then
            Except.error (PError.missingDefinition s.line col)
          else if peekc (l.drop 1) ≠ '=' then
            Except.error (PError.missingDefinition s.line (col + 1))
          else
            let col := col + 2
            let l := l.drop 2
            let sp2 := skipSpacesNotNl l
            let col := col + sp2.1
            let l := l.drop sp2.1
            if peekc l = '\x00' || peekc l = '\n' then
              Except.error (PError.missingDefinition s.line col)
            else
              Except.ok (idx, { s with nonterms := nts, col := col }, l)

/-- parse_regex (part_000, lines 58-76): skip leading whitespace, drop
blank and comment lines, otherwise parse header then body and mark the
non-terminal complete. -/
def parse_regex (s : PState) (l : List Char) : Except PError PState :=
  let sp := skipAllSpace l
  let s := { s with col := s.col + sp.1 }
  let l := sp.2
  if peekc l = '\x00' then
    Except.ok s
  else if peekc l = '!' then
    Except.ok s
  else
    match parse_header s l with
    | Except.error e => Except.error e
    | Except.ok (idx, s, l) =>
      match parse_body s l idx with
      | Except.error e => Except.error e
      | Except.ok (s, _) =>
        let nts := s.nonterms.set idx { s.nonterms.getD idx default with complete := true }
        Except.ok { s with nonterms := nts }

/-- parse_regex_spec (part_000, lines 41-55): fold the per-line parser
over the input lines, tracking the line counter. -/
def parse_regex_spec (lines : List (List Char)) : Except PError PState :=
  go lines ⟨[], [], [], 0, 0⟩
where
  go : List (List Char) → PState → Except PError PState
    | [], s => Except.ok s
    | l :: rest, s =>
      match parse_regex { s with line := s.line + 1, col := 0 } l with
      | Except.error e => Except.error e
      | Except.ok s1 => go rest s1

/-! ## The NFA construction engine (src/src/nfa.c) -/

/-- NFAStateType. -/
inductive NFAStateType where
  | start | internal | accepting
  deriving Repr, DecidableEq

/-- NFA state: the outgoing-edge slots (offsets into the edge pool, the
list length playing `numEdges`) and the state type.  The `visited` debug
bit only matters to the printers, which are not modelled. -/
structure NFAState where
  edges : List Nat
  type : NFAStateType
  deriving Repr, DecidableEq

instance : Inhabited NFAState := ⟨⟨[], NFAStateType.internal⟩⟩

/-- NFA edge: target state offset and transition symbol byte
(0 is EPSILON). -/
structure NFAEdge where
  target : Nat
  symbol : Nat
  deriving Repr, DecidableEq

instance : Inhabited NFAEdge := ⟨⟨0, 0⟩⟩

/-- NFA handle: offsets of the start and the accepting state. -/
structure NFA where
  start : Nat
  accepting : Nat
  deriving Repr, DecidableEq

instance : Inhabited NFA := ⟨⟨0, 0⟩⟩

/-- The three pools of the NFA arena.  The bounded C arrays are modelled
as growing lists (the cursor is the length); the capacity asserts are not
modelled, since every claim's input stays far below the capacity. -/
structure NFAPool where
  states : List NFAState
  edges : List NFAEdge
  nfas : List NFA
  deriving Repr, DecidableEq

def NFAPool.empty : NFAPool := ⟨[], [], []⟩

def getState (P : NFAPool) (i : Nat) : NFAState := P.states.getD i default

def getNfa (P : NFAPool) (i : Nat) : NFA := P.nfas.getD i default

def setNfa (P : NFAPool) (i : Nat) (h : NFA) : NFAPool :=
  { P with nfas := P.nfas.set i h }

/-- new_state: take the next free state slot, set its type and zero its
edge count; returns the pre-increment index. -/
def new_state (P : NFAPool) (ty : NFAStateType) : Nat × NFAPool :=
  (P.states.length, { P with states := P.states ++ [⟨[], ty⟩] })

/-- new_edge. -/
def new_edge (P : NFAPool) (target symbol : Nat) : Nat × NFAPool :=
  (P.edges.length, { P with edges := P.edges ++ [⟨target, symbol⟩] })

/-- new_nfa: a fresh Start/Accepting state pair with a fresh handle. -/
def new_nfa (P : NFAPool) : Nat × NFAPool :=
  let st := new_state P NFAStateType.start
  let ac := new_state st.2 NFAStateType.accepting
  (ac.2.nfas.length, { ac.2 with nfas := ac.2.nfas ++ [⟨st.1, ac.1⟩] })

/-- update_state_type. -/
def update_state_type (P : NFAPool) (i : Nat) (ty : NFAStateType) : NFAPool :=
  { P with states := P.states.set i { getState P i with type := ty } }

/-- Model of `state->edges[state->numEdges] = e; state->numEdges++;`. -/
def pushEdge (P : NFAPool) (i : Nat) (e : Nat) : NFAPool :=
  { P with states := P.states.set i { getState P i with edges := (getState P i).edges ++ [e] } }

/-- Model of writing `edges[0]`, `edges[1]` and then `numEdges = 2` on a
fresh state. -/
def setTwoEdges (P : NFAPool) (i : Nat) (e1 e2 : Nat) : NFAPool :=
  { P with states := P.states.set i { getState P i with edges := [e1, e2] } }

/-- Error kinds of the builder: the asserts of nfa.c that gate its logic.
Arena-capacity asserts are not modelled (see `NFAPool`). -/
inductive BError where
  | concatSelf
  | orSelf
  | emptyTerminal
  | stateHasEdges
  | nothingOperand
  | slotMismatch
  | outOfFuel
  deriving Repr, DecidableEq

/-- build_concat_nfa (nfa.c, lines 142-153): reclassify nfa1's accept as
internal, ε-link it to nfa2's start, adopt nfa2's accept, reclassify
nfa2's start as internal. -/
def build_concat_nfa (P : NFAPool) (i j : Nat) : Except BError NFAPool :=
  if i = j then Except.error BError.concatSelf
  else
    let A := getNfa P i
    let B := getNfa P j
    let P1 := update_state_type P A.accepting NFAStateType.internal
    let e := new_edge P1 B.start 0
    let P2 := pushEdge e.2 A.accepting e.1
    let P3 := setNfa P2 i { A with accepting := B.accepting }
    Except.ok (update_state_type P3 B.start NFAStateType.internal)

/-- build_or_nfa (nfa.c, lines 173-210): fresh start and accepting
states, all four old endpoints reclassified internal, four ε edges, and
nfa1's handle rewritten to the fresh endpoints. -/
def build_or_nfa (P : NFAPool) (i j : Nat) : Except BError NFAPool :=
  if i = j then Except.error BError.orSelf
  else
    let ns := new_state P NFAStateType.start
    let na := new_state ns.2 NFAStateType.accepting
    let P2 := na.2
    let A := getNfa P2 i
    let B := getNfa P2 j
    let P3 := update_state_type P2 A.start NFAStateType.internal
    let P4 := update_state_type P3 A.accepting NFAStateType.internal
    let P5 := update_state_type P4 B.start NFAStateType.internal
    let P6 := update_state_type P5 B.accepting NFAStateType.internal
    let e1 := new_edge P6 A.start 0
    let e2 := new_edge e1.2 B.start 0
    let P7 := setTwoEdges e2.2 ns.1 e1.1 e2.1
    let e3 := new_edge P7 na.1 0
    let P8 := pushEdge e3.2 A.accepting e3.1
    let e4 := new_edge P8 na.1 0
    let P9 := pushEdge e4.2 B.accepting e4.1
    Except.ok (setNfa P9 i ⟨ns.1, na.1⟩)

/-- build_closure_nfa (nfa.c, lines 230-259). -/
def build_closure_nfa (P : NFAPool) (i : Nat) : NFAPool :=
  let ns := new_state P NFAStateType.start
  let na := new_state ns.2 NFAStateType.accepting
  let P2 := na.2
  let A := getNfa P2 i
  let P3 := update_state_type P2 A.start NFAStateType.internal
  let P4 := update_state_type P3 A.accepting NFAStateType.internal
  let e1 := new_edge P4 A.start 0
  let e2 := new_edge e1.2 na.1 0
  let P5 := setTwoEdges e2.2 ns.1 e1.1 e2.1
  let e3 := new_edge P5 A.start 0
  let P6 := pushEdge e3.2 A.accepting e3.1
  let e4 := new_edge P6 na.1 0
  let P7 := pushEdge e4.2 A.accepting e4.1
  setNfa P7 i ⟨ns.1, na.1⟩

/-- One iteration of build_terminal_nfa's loop after its assert: allocate
the fresh internal state, allocate the byte edge towards it, and write
`prevState->edges[0] = e; prevState->numEdges = 1`. -/
def chainStepPool (P : NFAPool) (prev b : Nat) : NFAPool :=
  let cur := new_state P NFAStateType.internal
  let e := new_edge cur.2 cur.1 b
  { e.2 with states := e.2.states.set prev { getState e.2 prev with edges := [e.1] } }

/-- Chain-building loop of build_terminal_nfa (nfa.c, lines 316-326):
one fresh internal state and one byte-labelled edge per byte; the assert
checks that the predecessor still has no outgoing edges. -/
def terminalChain (P : NFAPool) (prev : Nat) :
    List Nat → Except BError (Nat × NFAPool)
  | [] => Except.ok (prev, P)
  | b :: rest =>
    let cur := new_state P NFAStateType.internal
    if (getState cur.2 prev).edges ≠ [] then Except.error BError.stateHasEdges
    else terminalChain (chainStepPool P prev b) cur.1 rest

/-- build_terminal_nfa (nfa.c, lines 310-335).  The argument is the
NUL-delimited byte string of the terminal (what `strlen`/the `*terminal`
loop traverse).  Note the trailing `new_nfa()` call allocates a fresh
(immediately orphaned) Start/Accepting pair before the handle is pointed
at the chain's endpoints. -/
def build_terminal_nfa (P : NFAPool) (bytes : List Nat) :
    Except BError (Nat × NFAPool) :=
  if bytes = [] then Except.error BError.emptyTerminal
  else
    let st := new_state P NFAStateType.start
    match terminalChain st.2 st.1 bytes with
    | Except.error e => Except.error e
    | Except.ok (last, P2) =>
      let P3 := update_state_type P2 last NFAStateType.accepting
      let h := new_nfa P3
      Except.ok (h.1, setNfa h.2 h.1 ⟨st.1, last⟩)

/-- Bytes of the terminal stored at `off` in the terminal pool, as the
NFA builder reads them through `termTable + operandOffset` up to the
NUL: symbols are the byte values, so 0 is EPSILON. -/
def termBytes (tp : List Char) (off : Nat) : List Nat :=
  ((tp.drop off).takeWhile (fun c => c != '\x00')).map Char.toNat

/-- Driver state: the NFA arena plus `nontermToNFAMap`, whose entries
are initialised to -1 ("NFA not yet created") by the memset in
build_nfa. -/
structure DriverSt where
  pool : NFAPool
  map : List Int
  deriving Repr, DecidableEq

/-- Work item of the mutually recursive builder trio of nfa.c.  The
mutual recursion is defunctionalised into one fuel-indexed dispatcher so
that the recursion is structural (the three C functions are the wrappers
below). -/
inductive BuildTask where
  | opnd (slot : Slot) (tag : OperandTag)
  | nt (i : Nat)
  | expr (r : ExprRef)
  deriving Repr, DecidableEq

/-- Single-step dispatcher for the builder trio; see the wrappers
`build_expr_op_nfa`, `build_non_terminal_nfa`, `build_regex_expr_nfa`
for the correspondence to nfa.c. -/
def build_step (s : PState) : Nat → BuildTask → DriverSt → Except BError (Nat × DriverSt)
  | 0, _, _ => Except.error BError.outOfFuel
  | Nat.succ f, BuildTask.opnd slot tag, st =>
    -- build_expr_op_nfa (nfa.c, lines 261-273): dispatch an operand slot
    -- on its tag; the C slot is a single void pointer, and the Slot sum
    -- records which arena it addresses.  NOTHING trips assert(FALSE).
    (match tag, slot with
     | OperandTag.nestedExpression, Slot.expr r => build_step s f (BuildTask.expr r) st
     | OperandTag.leafOperator, Slot.nonterm i => build_step s f (BuildTask.nt i) st
     | OperandTag.leafOperator, Slot.term off =>
       match build_terminal_nfa st.pool (termBytes s.termPool off) with
       | Except.error e => Except.error e
       | Except.ok (h, P) => Except.ok (h, { st with pool := P })
     | OperandTag.nothingTag, _ => Except.error BError.nothingOperand
     | _, _ => Except.error BError.slotMismatch)
  | Nat.succ f, BuildTask.nt i, st =>
    -- build_non_terminal_nfa (nfa.c, lines 275-280), translated as
    -- written: it stores the freshly built NFA of the non-terminal's
    -- expression into nontermToNFAMap and returns it.  The map is never
    -- consulted first (the -1 initialisation has no reader), so every
    -- call rebuilds.
    (match build_step s f (BuildTask.expr (ExprRef.head i)) st with
     | Except.error e => Except.error e
     | Except.ok (h, st1) => Except.ok (h, { st1 with map := st1.map.set i (Int.ofNat h) }))
  | Nat.succ f, BuildTask.expr r, st =>
    -- build_regex_expr_nfa (nfa.c, lines 282-306)
    let e := getExpr s r
    match build_step s f (BuildTask.opnd e.op1 e.op1Type) st with
    | Except.error err => Except.error err
    | Except.ok (n1, st1) =>
      match e.type with
      | OperatorType.noOp => Except.ok (n1, st1)
      | OperatorType.orOp =>
        match build_step s f (BuildTask.opnd e.op2 e.op2Type) st1 with
        | Except.error err => Except.error err
        | Except.ok (n2, st2) =>
          match build_or_nfa st2.pool n1 n2 with
          | Except.error err => Except.error err
          | Except.ok P => Except.ok (n1, { st2 with pool := P })
      | OperatorType.andOp =>
        match build_step s f (BuildTask.opnd e.op2 e.op2Type) st1 with
        | Except.error err => Except.error err
        | Except.ok (n2, st2) =>
          match build_concat_nfa st2.pool n1 n2 with
          | Except.error err => Except.error err
          | Except.ok P => Except.ok (n1, { st2 with pool := P })
      | OperatorType.zeroOrMore =>
        Except.ok (n1, { st1 with pool := build_closure_nfa st1.pool n1 })

/-- build_expr_op_nfa (nfa.c, lines 261-273). -/
def build_expr_op_nfa (s : PState) (fuel : Nat) (slot : Slot) (tag : OperandTag)
    (st : DriverSt) : Except BError (Nat × DriverSt) :=
  build_step s (fuel + 1) (BuildTask.opnd slot tag) st

/-- build_non_terminal_nfa (nfa.c, lines 275-280). -/
def build_non_terminal_nfa (s : PState) (fuel : Nat) (i : Nat)
    (st : DriverSt) : Except BError (Nat × DriverSt) :=
  build_step s (fuel + 1) (BuildTask.nt i) st

/-- build_regex_expr_nfa (nfa.c, lines 282-306). -/
def build_regex_expr_nfa (s : PState) (fuel : Nat) (r : ExprRef)
    (st : DriverSt) : Except BError (Nat × DriverSt) :=
  build_step s (fuel + 1) (BuildTask.expr r) st

/-- First loop of build_nfa (nfa.c, lines 103-105): build every
non-terminal's NFA, in table-index order. -/
def buildAllNonterms (s : PState) (fuel : Nat) :
    List Nat → DriverSt → Except BError DriverSt
  | [], st => Except.ok st
  | i :: rest, st =>
    match build_non_terminal_nfa s fuel i st with
    | Except.error e => Except.error e
    | Except.ok (_, st1) => buildAllNonterms s fuel rest st1

/-- Second loop of build_nfa (nfa.c, lines 107-109): union the per-name
NFAs into the NFA recorded at map index 0, joining later indices
sequentially. -/
def unionAll (st : DriverSt) : List Nat → Except BError DriverSt
  | [] => Except.ok st
  | i :: rest =>
    match build_or_nfa st.pool (st.map.getD 0 (-1)).toNat
        (st.map.getD i (-1)).toNat with
    | Except.error e => Except.error e
    | Except.ok P => unionAll { st with pool := P } rest

/-- build_nfa (nfa.c, lines 91-112): memset the map to -1, build each
non-terminal's NFA in index order, then OR indices 1.. into index 0. -/
def build_nfa (s : PState) (fuel : Nat) : Except BError DriverSt :=
  let n := s.nonterms.length
  let st0 : DriverSt := ⟨NFAPool.empty, List.replicate n (-1 : Int)⟩
  match buildAllNonterms s fuel (List.range n) st0 with
  | Except.error e => Except.error e
  | Except.ok st1 => unionAll st1 ((List.range n).drop 1)

/-! ## Semantic notions about pools: reachability, spelled words,
well-formedness.  These interpret the arena data; they are the vocabulary
of the claims about the Thompson combinators. -/

/-- Resolved outgoing edges of state `u`. -/
def edgesOf (P : NFAPool) (u : Nat) : List NFAEdge :=
  (getState P u).edges.map (fun ei => P.edges.getD ei default)

/-- Type of state `u`. -/
def stype (P : NFAPool) (u : Nat) : NFAStateType := (getState P u).type

/-- One transition step (any symbol). -/
def EdgeTo (P : NFAPool) (u v : Nat) : Prop :=
  ∃ e ∈ edgesOf P u, e.target = v

/-- Reachability along edges (what the traversals of nfa.c explore). -/
inductive Reach (P : NFAPool) : Nat → Nat → Prop
  | refl (u : Nat) : Reach P u u
  | head {u v w : Nat} : EdgeTo P u v → Reach P v w → Reach P u w

/-- A path from `u` to `w` spelling the word: ε edges (symbol 0)
contribute nothing, other edges contribute their byte. -/
inductive Spell (P : NFAPool) : Nat → List Nat → Nat → Prop
  | nil (u : Nat) : Spell P u [] u
  | eps {u v w : Nat} {word : List Nat} :
      (⟨v, 0⟩ : NFAEdge) ∈ edgesOf P u → Spell P v word w → Spell P u word w
  | sym {u v w c : Nat} {word : List Nat} :
      (⟨v, c⟩ : NFAEdge) ∈ edgesOf P u → c ≠ 0 → Spell P v word w →
      Spell P u (c :: word) w

/-- Language of the automaton under handle `h`. -/
def Accepts (P : NFAPool) (h : NFA) (word : List Nat) : Prop :=
  Spell P h.start word h.accepting

/-- A pool is closed when every stored edge offset resolves inside the
edge pool and every edge targets an allocated state.  Every pool the
builder constructs is closed. -/
def Closed (P : NFAPool) : Prop :=
  (∀ st ∈ P.states, ∀ ei ∈ st.edges, ei < P.edges.length) ∧
  (∀ e ∈ P.edges, e.target < P.states.length)

/-- The one-start / one-accept shape of a Thompson automaton: the
handle's endpoints carry their types, and they are the only reachable
states carrying them. -/
def UniqueSA (P : NFAPool) (h : NFA) : Prop :=
  stype P h.start = NFAStateType.start ∧
  stype P h.accepting = NFAStateType.accepting ∧
  Reach P h.start h.accepting ∧
  (∀ s, Reach P h.start s → stype P s = NFAStateType.start → s = h.start) ∧
  (∀ s, Reach P h.start s → stype P s = NFAStateType.accepting → s = h.accepting)

/-- Well-formed operand automaton: allocated distinct endpoints with the
one-start / one-accept shape. -/
def WFHandle (P : NFAPool) (h : NFA) : Prop :=
  h.start < P.states.length ∧ h.accepting < P.states.length ∧
  h.start ≠ h.accepting ∧ UniqueSA P h

/-- Two operand automata living in the same arena do not share reachable
states (as holds for the disjoint machines the driver combines). -/
def Separated (P : NFAPool) (a b : NFA) : Prop :=
  ∀ s, Reach P a.start s → Reach P b.start s → False

/-- Executable chain-shape test: starting at state `u`, each listed byte
is carried by the unique outgoing edge to the next consecutive state,
and the final state `u + length` has no outgoing edges.  This is the
shape `build_terminal_nfa` lays down. -/
def contigChain : NFAPool → Nat → List Nat → Bool
  | P, u, [] => edgesOf P u == []
  | P, u, b :: rest => edgesOf P u == [⟨u + 1, b⟩] && contigChain P (u + 1) rest

/-! ## Reference extraction of header names, and the concrete inputs the
claims mention. -/

/-- Name of the non-terminal defined by a line, for stating definition
order: after leading whitespace the line must start with `$`, and the
name extends to the first whitespace or NUL, exactly as parse_header
scans it.  Comment and blank lines define nothing. -/
def headerName (l : List Char) : Option (List Char) :=
  let l1 := (skipAllSpace l).2
  if peekc l1 = '$' then
    some ('$' :: (l1.drop 1).takeWhile (fun c => c != '\x00' && !(c_isspace c)))
  else none

/-- Names of the non-terminals in definition order. -/
def headerNames (lines : List (List Char)) : List (List Char) :=
  lines.filterMap headerName

/-- Names in table order (the order the driver processes them). -/
def tableNames (s : PState) : List (List Char) := s.nonterms.map NonTerminal.name

def inputEscape : List (List Char) := ["$x := @_ | @@\n".toList]
def inputMemo : List (List Char) := ["$x := $y\n".toList, "$y := z\n".toList]
def inputOrder : List (List Char) :=
  ["$a := $c\n".toList, "$b := x\n".toList, "$c := y\n".toList]
def inputPair : List (List Char) := ["$x := a b\n".toList]
def inputStar : List (List Char) := ["$x := a b* c\n".toList]
def inputTrailingBar : List (List Char) := ["$x := a |\n".toList]
def inputMidBar : List (List Char) := ["$x := a | | b\n".toList]
def inputPrefixName : List (List Char) := ["$abc := q\n".toList, "$x := $ab\n".toList]
def inputAlt : List (List Char) := ["$x := a | b\n".toList]

/-- Shape of the pool produced by `build_or_nfa` on operands `A`, `B`:
two fresh endpoint states wired by four ε edges, the four old endpoints
reclassified internal, everything else untouched. -/
structure OrShape (P : NFAPool) (A B : NFA) (P2 : NFAPool) : Prop where
  slen : P2.states.length = P.states.length + 2
  eNs : edgesOf P2 P.states.length = [⟨A.start, 0⟩, ⟨B.start, 0⟩]
  eNa : edgesOf P2 (P.states.length + 1) = []
  eAcc : edgesOf P2 A.accepting = edgesOf P A.accepting ++ [⟨P.states.length + 1, 0⟩]
  eBcc : edgesOf P2 B.accepting = edgesOf P B.accepting ++ [⟨P.states.length + 1, 0⟩]
  eOld : ∀ u, u < P.states.length → u ≠ A.accepting → u ≠ B.accepting →
    edgesOf P2 u = edgesOf P u
  tNs : stype P2 P.states.length = NFAStateType.start
  tNa : stype P2 (P.states.length + 1) = NFAStateType.accepting
  tAs : stype P2 A.start = NFAStateType.internal
  tAa : stype P2 A.accepting = NFAStateType.internal
  tBs : stype P2 B.start = NFAStateType.internal
  tBa : stype P2 B.accepting = NFAStateType.internal
  tOld : ∀ u, u < P.states.length → u ≠ A.start → u ≠ A.accepting → u ≠ B.start →
    u ≠ B.accepting → stype P2 u = stype P u

/-- Shape of the pool produced by `build_concat_nfa`. -/
structure ConcatShape (P : NFAPool) (A B : NFA) (P2 : NFAPool) : Prop where
  slen : P2.states.length = P.states.length
  eAcc : edgesOf P2 A.accepting = edgesOf P A.accepting ++ [⟨B.start, 0⟩]
  eOld : ∀ u, u ≠ A.accepting → edgesOf P2 u = edgesOf P u
  tAa : stype P2 A.accepting = NFAStateType.internal
  tBs : stype P2 B.start = NFAStateType.internal
  tOld : ∀ u, u ≠ A.accepting → u ≠ B.start → stype P2 u = stype P u

/-- Shape of the pool produced by `build_closure_nfa` on operand `A`. -/
structure ClosureShape (P : NFAPool) (A : NFA) (P2 : NFAPool) : Prop where
  slen : P2.states.length = P.states.length + 2
  eNs : edgesOf P2 P.states.length = [⟨A.start, 0⟩, ⟨P.states.length + 1, 0⟩]
  eNa : edgesOf P2 (P.states.length + 1) = []
  eAcc : edgesOf P2 A.accepting
    = edgesOf P A.accepting ++ [⟨A.start, 0⟩, ⟨P.states.length + 1, 0⟩]
  eOld : ∀ u, u < P.states.length → u ≠ A.accepting → edgesOf P2 u = edgesOf P u
  tNs : stype P2 P.states.length = NFAStateType.start
  tNa : stype P2 (P.states.length + 1) = NFAStateType.accepting
  tAs : stype P2 A.start = NFAStateType.internal
  tAa : stype P2 A.accepting = NFAStateType.internal
  tOld : ∀ u, u < P.states.length → u ≠ A.start → u ≠ A.accepting →
    stype P2 u = stype P u

/-! ## Main-flow glue, invariant vocabulary and concrete data for the
claims -/

/-- The main flow of main.c: parse the specification, then hand the
completed table to build_nfa.  `fuel` bounds the defunctionalised
builder's recursion depth; 32 is ample for every input considered
here. -/
def parseAndBuild (lines : List (List Char)) (fuel : Nat) : Option DriverSt :=
  match parse_regex_spec lines with
  | Except.error _ => none
  | Except.ok s => (build_nfa s fuel).toOption

instance (P : NFAPool) : Decidable (Closed P) :=
  decidable_of_iff ((∀ st ∈ P.states, ∀ ei ∈ st.edges, ei < P.edges.length) ∧
    (∀ e ∈ P.edges, e.target < P.states.length)) Iff.rfl

/-- The tree-shape discipline claimed for expression nodes: a nulled
`op2` slot tag only ever sits on a closure node. -/
def NodeOk (e : Expression) : Prop :=
  e.op2Type = OperandTag.nothingTag → e.type = OperatorType.zeroOrMore

instance (e : Expression) : Decidable (NodeOk e) :=
  decidable_of_iff (e.op2Type = OperandTag.nothingTag → e.type = OperatorType.zeroOrMore)
    Iff.rfl

/-- Parser-state invariant behind claim C4: every pool node satisfies
`NodeOk`, and a not-yet-completed non-terminal still has the untouched
zero-initialised `op2Type` on its embedded head node. -/
def ParseInv (s : PState) : Prop :=
  (∀ e ∈ s.exprPool, NodeOk e) ∧
  (∀ nt ∈ s.nonterms, nt.complete = false →
    nt.headExpr.op2Type = OperandTag.nestedExpression)

/-- Table-index discipline behind claim C3: every record stores its own
position, as laid down at first mention. -/
def IdxInv (nts : List NonTerminal) : Prop :=
  ∀ i, i < nts.length → (nts.getD i default).idx = i

/-- An expression pointer that addresses an allocated slot. -/
def refInRange (s : PState) : ExprRef → Prop
  | ExprRef.head i => i < s.nonterms.length
  | ExprRef.pool k => k < s.exprPool.length

/-- Two disjoint single-byte chain automata (`a` at states 0-1, `b` at
states 2-3) in one arena: the concrete operands the combinator claims
are instantiated on. -/
def poolAB : NFAPool :=
  ⟨[⟨[0], NFAStateType.start⟩, ⟨[], NFAStateType.accepting⟩,
    ⟨[1], NFAStateType.start⟩, ⟨[], NFAStateType.accepting⟩],
   [⟨1, 97⟩, ⟨3, 98⟩],
   [⟨0, 1⟩, ⟨2, 3⟩]⟩

/-- `build_concat_nfa poolAB 0 1`, laid out literally. -/
def concatAB : NFAPool :=
  ⟨[⟨[0], NFAStateType.start⟩, ⟨[2], NFAStateType.internal⟩,
    ⟨[1], NFAStateType.internal⟩, ⟨[], NFAStateType.accepting⟩],
   [⟨1, 97⟩, ⟨3, 98⟩, ⟨2, 0⟩],
   [⟨0, 3⟩, ⟨2, 3⟩]⟩

/-- `build_or_nfa poolAB 0 1`, laid out literally. -/
def orAB : NFAPool :=
  ⟨[⟨[0], NFAStateType.internal⟩, ⟨[4], NFAStateType.internal⟩,
    ⟨[1], NFAStateType.internal⟩, ⟨[5], NFAStateType.internal⟩,
    ⟨[2, 3], NFAStateType.start⟩, ⟨[], NFAStateType.accepting⟩],
   [⟨1, 97⟩, ⟨3, 98⟩, ⟨0, 0⟩, ⟨2, 0⟩, ⟨5, 0⟩, ⟨5, 0⟩],
   [⟨4, 5⟩, ⟨2, 3⟩]⟩

/-- The arena the driver holds for `$x := a | b` right before the final
`build_or_nfa`: the two terminal chains, each followed by the orphaned
Start/Accepting pair its trailing `new_nfa()` allocates. -/
def poolPreAlt : NFAPool :=
  ⟨[⟨[0], NFAStateType.start⟩, ⟨[], NFAStateType.accepting⟩,
    ⟨[], NFAStateType.start⟩, ⟨[], NFAStateType.accepting⟩,
    ⟨[1], NFAStateType.start⟩, ⟨[], NFAStateType.accepting⟩,
    ⟨[], NFAStateType.start⟩, ⟨[], NFAStateType.accepting⟩],
   [⟨1, 97⟩, ⟨5, 98⟩],
   [⟨0, 1⟩, ⟨4, 5⟩]⟩

/-- The arena the driver ends with on `$x := a | b`. -/
def altPool : NFAPool :=
  ⟨[⟨[0], NFAStateType.internal⟩, ⟨[4], NFAStateType.internal⟩,
    ⟨[], NFAStateType.start⟩, ⟨[], NFAStateType.accepting⟩,
    ⟨[1], NFAStateType.internal⟩, ⟨[5], NFAStateType.internal⟩,
    ⟨[], NFAStateType.start⟩, ⟨[], NFAStateType.accepting⟩,
    ⟨[2, 3], NFAStateType.start⟩, ⟨[], NFAStateType.accepting⟩],
   [⟨1, 97⟩, ⟨5, 98⟩, ⟨0, 0⟩, ⟨4, 0⟩, ⟨9, 0⟩, ⟨9, 0⟩],
   [⟨8, 9⟩, ⟨4, 5⟩]⟩

/-- The parser state `$x := a b* c` produces, laid out literally: the
tree And(a, And(ZeroOrMore(b), And(c, NoOp))) with the closure node at
pool slot 0 nested inside the And at pool slot 1. -/
def starState : PState :=
  ⟨[⟨['$', 'x'],
     ⟨Slot.term 0, Slot.expr (ExprRef.pool 1), OperandTag.leafOperator,
      OperandTag.nestedExpression, OperatorType.andOp⟩,
     true, 0⟩],
   ['a', '\x00', 'b', '\x00', 'c', '\x00'],
   [⟨Slot.term 2, Slot.null, OperandTag.leafOperator,
     OperandTag.nothingTag, OperatorType.zeroOrMore⟩,
    ⟨Slot.expr (ExprRef.pool 0), Slot.expr (ExprRef.pool 2),
     OperandTag.nestedExpression, OperandTag.nestedExpression, OperatorType.andOp⟩,
    ⟨Slot.term 4, Slot.null, OperandTag.leafOperator,
     OperandTag.nestedExpression, OperatorType.noOp⟩],
   1, 12⟩

/-! ## Helper lemmas on list access -/

theorem getD_set_self {α : Type} (l : List α) (i : Nat) (a d : α) (h : i < l.length) :
    (l.set i a).getD i d = a := by
  simp [List.getD_eq_getElem?_getD, List.getElem?_set_self, h]

theorem getD_set_other {α : Type} (l : List α) {i j : Nat} (a : α) (d : α) (h : i ≠ j) :
    (l.set i a).getD j d = l.getD j d := by
  simp [List.getD_eq_getElem?_getD, List.getElem?_set_ne h]

theorem getD_append_left {α : Type} (l t : List α) (i : Nat) (d : α) (h : i < l.length) :
    (l ++ t).getD i d = l.getD i d := by
  simp [List.getD_eq_getElem?_getD, List.getElem?_append, h]

theorem getD_append_right {α : Type} (l t : List α) (i : Nat) (d : α) (h : l.length ≤ i) :
    (l ++ t).getD i d = t.getD (i - l.length) d := by
  simp [List.getD_eq_getElem?_getD, List.getElem?_append_right h]

theorem getD_len_le {α : Type} (l : List α) (i : Nat) (d : α) (h : l.length ≤ i) :
    l.getD i d = d := by
  simp [List.getD_eq_getElem?_getD, List.getElem?_eq_none h]

theorem getD_mem {α : Type} (l : List α) (i : Nat) (d : α) (h : i < l.length) :
    l.getD i d ∈ l := by
  simp only [List.getD_eq_getElem?_getD, List.getElem?_eq_getElem h, Option.getD_some]
  exact l.getElem_mem h

/-! ## Basic facts about reachability and spelled paths -/

theorem Reach.trans {P : NFAPool} {u v w : Nat} (h1 : Reach P u v) (h2 : Reach P v w) :
    Reach P u w := by
  induction h1 with
  | refl => exact h2
  | head e _ ih => exact Reach.head e (ih h2)

theorem Reach.single {P : NFAPool} {u v : Nat} (h : EdgeTo P u v) : Reach P u v :=
  Reach.head h (Reach.refl v)

/-- Edge-set extension between pools: every resolved edge of every state
survives.  The combinators only append to edge lists and retype states,
so they extend in this sense. -/
def EdgeSub (P Q : NFAPool) : Prop :=
  ∀ u e, e ∈ edgesOf P u → e ∈ edgesOf Q u

theorem Reach.mono {P Q : NFAPool} (hs : EdgeSub P Q) {u v : Nat} (h : Reach P u v) :
    Reach Q u v := by
  induction h with
  | refl => exact Reach.refl _
  | head e _ ih =>
    obtain ⟨ed, hm, ht⟩ := e
    exact Reach.head ⟨ed, hs _ _ hm, ht⟩ ih

theorem spell_mono {P Q : NFAPool} (hs : EdgeSub P Q) {u v : Nat} {w : List Nat}
    (h : Spell P u w v) : Spell Q u w v := by
  induction h with
  | nil => exact Spell.nil _
  | eps he _ ih => exact Spell.eps (hs _ _ he) ih
  | sym he hc _ ih => exact Spell.sym (hs _ _ he) hc ih

/-- Bounding reachable states by a list closed under the edge relation. -/
theorem reach_subset_list {P : NFAPool} {L : List Nat}
    (hcl : ∀ u ∈ L, ∀ e ∈ edgesOf P u, e.target ∈ L) :
    ∀ {a v : Nat}, Reach P a v → a ∈ L → v ∈ L := by
  intro a v h
  induction h with
  | refl => exact id
  | @head u t w e _ ih =>
    intro hu
    obtain ⟨ed, hm, ht⟩ := e
    exact ih (ht ▸ hcl u hu ed hm)

theorem edgesOf_len_le {P : NFAPool} {u : Nat} (h : P.states.length ≤ u) :
    edgesOf P u = [] := by
  unfold edgesOf getState
  rw [getD_len_le _ _ _ h]
  rfl

theorem mem_edgesOf_target_lt {P : NFAPool} (hc : Closed P) {u : Nat}
    {e : NFAEdge} (he : e ∈ edgesOf P u) : e.target < P.states.length := by
  by_cases hu : u < P.states.length
  · simp only [edgesOf, List.mem_map] at he
    obtain ⟨ei, hei, rfl⟩ := he
    have hst : getState P u ∈ P.states := getD_mem _ _ _ hu
    have h1 : ei < P.edges.length := hc.1 _ hst _ hei
    have h2 : P.edges.getD ei default ∈ P.edges := getD_mem _ _ _ h1
    exact hc.2 _ h2
  · rw [edgesOf_len_le (Nat.le_of_not_lt hu)] at he
    cases he

theorem reach_lt {P : NFAPool} (hc : Closed P) {u v : Nat}
    (h : Reach P u v) (hu : u < P.states.length) : v < P.states.length := by
  induction h with
  | refl => exact hu
  | @head a b c e _ ih =>
    obtain ⟨ed, hm, ht⟩ := e
    exact ih (ht ▸ mem_edgesOf_target_lt hc hm)

/-! ## Preservation lemmas for the arena primitives -/

theorem edgesOf_setNfa (P : NFAPool) (i : Nat) (h : NFA) (u : Nat) :
    edgesOf (setNfa P i h) u = edgesOf P u := rfl

theorem stype_setNfa (P : NFAPool) (i : Nat) (h : NFA) (u : Nat) :
    stype (setNfa P i h) u = stype P u := rfl

theorem edgesOf_eq_of {P Q : NFAPool} (hs : P.states = Q.states) (he : P.edges = Q.edges)
    (u : Nat) : edgesOf P u = edgesOf Q u := by
  unfold edgesOf getState
  rw [hs, he]

theorem stype_eq_of {P Q : NFAPool} (hs : P.states = Q.states) (u : Nat) :
    stype P u = stype Q u := by
  unfold stype getState
  rw [hs]

theorem getState_update_state_type (P : NFAPool) (i : Nat) (ty : NFAStateType) (u : Nat) :
    getState (update_state_type P i ty) u =
      if u = i ∧ i < P.states.length then { getState P i with type := ty }
      else getState P u := by
  unfold update_state_type getState
  by_cases hi : i < P.states.length
  · by_cases hu : u = i
    · subst hu
      rw [if_pos ⟨rfl, hi⟩]
      exact getD_set_self _ _ _ _ hi
    · rw [if_neg (fun hc => hu hc.1)]
      exact getD_set_other _ _ _ (fun h => hu h.symm)
  · rw [List.set_eq_of_length_le (Nat.le_of_not_lt hi), if_neg (fun hc => hi hc.2)]

theorem edgesOf_update_state_type (P : NFAPool) (i : Nat) (ty : NFAStateType) (u : Nat) :
    edgesOf (update_state_type P i ty) u = edgesOf P u := by
  unfold edgesOf
  rw [show (update_state_type P i ty).edges = P.edges from rfl, getState_update_state_type]
  by_cases h : u = i ∧ i < P.states.length
  · rw [if_pos h, h.1]
  · rw [if_neg h]

theorem stype_update_state_type_self {P : NFAPool} {i : Nat} (ty : NFAStateType)
    (h : i < P.states.length) : stype (update_state_type P i ty) i = ty := by
  unfold stype
  rw [getState_update_state_type, if_pos ⟨rfl, h⟩]

theorem stype_update_state_type_other {P : NFAPool} {i u : Nat} (ty : NFAStateType)
    (h : u ≠ i) : stype (update_state_type P i ty) u = stype P u := by
  unfold stype
  rw [getState_update_state_type, if_neg (fun hc => h hc.1)]

theorem getState_new_state (P : NFAPool) (ty : NFAStateType) (u : Nat) :
    getState (new_state P ty).2 u =
      if u < P.states.length then getState P u
      else if u = P.states.length then ⟨[], ty⟩ else default := by
  unfold new_state getState
  by_cases h : u < P.states.length
  · rw [if_pos h]
    exact getD_append_left _ _ _ _ h
  · rw [if_neg h]
    have h1 := Nat.le_of_not_lt h
    rw [getD_append_right _ _ _ _ h1]
    by_cases h2 : u = P.states.length
    · rw [if_pos h2, h2]
      simp
    · rw [if_neg h2, getD_len_le]
      simp
      omega

theorem edgesOf_new_state (P : NFAPool) (ty : NFAStateType) (u : Nat) :
    edgesOf (new_state P ty).2 u = edgesOf P u := by
  unfold edgesOf
  rw [show (new_state P ty).2.edges = P.edges from rfl, getState_new_state]
  by_cases h : u < P.states.length
  · rw [if_pos h]
  · rw [if_neg h]
    have h1 : getState P u = default := getD_len_le _ _ _ (Nat.le_of_not_lt h)
    rw [h1]
    by_cases h2 : u = P.states.length
    · rw [if_pos h2]
      rfl
    · rw [if_neg h2]

theorem stype_new_state_old {P : NFAPool} {ty : NFAStateType} {u : Nat}
    (h : u < P.states.length) : stype (new_state P ty).2 u = stype P u := by
  unfold stype
  rw [getState_new_state, if_pos h]

theorem stype_new_state_self (P : NFAPool) (ty : NFAStateType) :
    stype (new_state P ty).2 P.states.length = ty := by
  unfold stype
  rw [getState_new_state, if_neg (Nat.lt_irrefl _), if_pos rfl]

theorem new_state_states_len (P : NFAPool) (ty : NFAStateType) :
    (new_state P ty).2.states.length = P.states.length + 1 := by
  simp [new_state]

theorem edgesOf_new_nfa (P : NFAPool) (u : Nat) :
    edgesOf (new_nfa P).2 u = edgesOf P u := by
  have h1 : edgesOf (new_nfa P).2 u
      = edgesOf (new_state (new_state P NFAStateType.start).2 NFAStateType.accepting).2 u :=
    edgesOf_eq_of rfl rfl u
  rw [h1, edgesOf_new_state, edgesOf_new_state]

theorem stype_new_nfa_old {P : NFAPool} {u : Nat} (h : u < P.states.length) :
    stype (new_nfa P).2 u = stype P u := by
  have h1 : stype (new_nfa P).2 u
      = stype (new_state (new_state P NFAStateType.start).2 NFAStateType.accepting).2 u :=
    stype_eq_of rfl u
  rw [h1, stype_new_state_old, stype_new_state_old h]
  rw [new_state_states_len]
  omega

theorem pushEdge_getState (P : NFAPool) (i e u : Nat) :
    getState (pushEdge P i e) u =
      if u = i ∧ i < P.states.length
      then { getState P i with edges := (getState P i).edges ++ [e] }
      else getState P u := by
  unfold pushEdge getState
  by_cases hi : i < P.states.length
  · by_cases hu : u = i
    · subst hu
      rw [if_pos ⟨rfl, hi⟩]
      exact getD_set_self _ _ _ _ hi
    · rw [if_neg (fun hc => hu hc.1)]
      exact getD_set_other _ _ _ (fun h => hu h.symm)
  · rw [List.set_eq_of_length_le (Nat.le_of_not_lt hi), if_neg (fun hc => hi hc.2)]

theorem setTwoEdges_getState (P : NFAPool) (i e1 e2 u : Nat) :
    getState (setTwoEdges P i e1 e2) u =
      if u = i ∧ i < P.states.length
      then { getState P i with edges := [e1, e2] }
      else getState P u := by
  unfold setTwoEdges getState
  by_cases hi : i < P.states.length
  · by_cases hu : u = i
    · subst hu
      rw [if_pos ⟨rfl, hi⟩]
      exact getD_set_self _ _ _ _ hi
    · rw [if_neg (fun hc => hu hc.1)]
      exact getD_set_other _ _ _ (fun h => hu h.symm)
  · rw [List.set_eq_of_length_le (Nat.le_of_not_lt hi), if_neg (fun hc => hi hc.2)]

theorem pushEdge_get_other {P : NFAPool} {i u : Nat} (e : Nat) (h : u ≠ i) :
    getState (pushEdge P i e) u = getState P u := by
  rw [pushEdge_getState, if_neg (fun hc => h hc.1)]

theorem pushEdge_get_self {P : NFAPool} {i : Nat} (e : Nat) (h : i < P.states.length) :
    getState (pushEdge P i e) i
      = { getState P i with edges := (getState P i).edges ++ [e] } := by
  rw [pushEdge_getState, if_pos ⟨rfl, h⟩]

theorem setTwoEdges_get_other {P : NFAPool} {i u : Nat} (e1 e2 : Nat) (h : u ≠ i) :
    getState (setTwoEdges P i e1 e2) u = getState P u := by
  rw [setTwoEdges_getState, if_neg (fun hc => h hc.1)]

theorem setTwoEdges_get_self {P : NFAPool} {i : Nat} (e1 e2 : Nat)
    (h : i < P.states.length) :
    getState (setTwoEdges P i e1 e2) i = { getState P i with edges := [e1, e2] } := by
  rw [setTwoEdges_getState, if_pos ⟨rfl, h⟩]

theorem pushEdge_states_len (P : NFAPool) (i e : Nat) :
    (pushEdge P i e).states.length = P.states.length := by
  simp [pushEdge]

theorem setTwoEdges_states_len (P : NFAPool) (i e1 e2 : Nat) :
    (setTwoEdges P i e1 e2).states.length = P.states.length := by
  simp [setTwoEdges]

theorem stype_update_state_type (P : NFAPool) (i : Nat) (ty : NFAStateType) (u : Nat) :
    stype (update_state_type P i ty) u =
      if u = i ∧ i < P.states.length then ty else stype P u := by
  unfold stype
  rw [getState_update_state_type]
  by_cases h : u = i ∧ i < P.states.length
  · rw [if_pos h, if_pos h]
  · rw [if_neg h, if_neg h]

theorem stype_update_cascade {P : NFAPool} {u i : Nat} {ty : NFAStateType}
    (h : stype P u = ty ∨ (u = i ∧ i < P.states.length)) :
    stype (update_state_type P i ty) u = ty := by
  rw [stype_update_state_type]
  by_cases hc : u = i ∧ i < P.states.length
  · rw [if_pos hc]
  · rw [if_neg hc]
    rcases h with h | h
    · exact h
    · exact absurd h hc

theorem stype_pushEdge (P : NFAPool) (i e u : Nat) :
    stype (pushEdge P i e) u = stype P u := by
  unfold stype
  rw [pushEdge_getState]
  by_cases h : u = i ∧ i < P.states.length
  · rw [if_pos h]
    show (getState P i).type = _
    rw [h.1]
  · rw [if_neg h]

theorem stype_setTwoEdges (P : NFAPool) (i e1 e2 u : Nat) :
    stype (setTwoEdges P i e1 e2) u = stype P u := by
  unfold stype
  rw [setTwoEdges_getState]
  by_cases h : u = i ∧ i < P.states.length
  · rw [if_pos h]
    show (getState P i).type = _
    rw [h.1]
  · rw [if_neg h]

theorem update_state_type_get_edges (P : NFAPool) (i : Nat) (ty : NFAStateType) (u : Nat) :
    (getState (update_state_type P i ty) u).edges = (getState P u).edges := by
  rw [getState_update_state_type]
  by_cases h : u = i ∧ i < P.states.length
  · rw [if_pos h]
    show (getState P i).edges = _
    rw [h.1]
  · rw [if_neg h]

theorem update_state_type_states_len (P : NFAPool) (i : Nat) (ty : NFAStateType) :
    (update_state_type P i ty).states.length = P.states.length := by
  simp [update_state_type]

/-- Resolving a state's stored edge offsets is unaffected by growing the
edge pool, provided the pool is closed. -/
theorem map_getD_append_of_closed {P : NFAPool} (hc : Closed P) {u : Nat}
    (hu : u < P.states.length) (ext : List NFAEdge) :
    (getState P u).edges.map (fun ei => (P.edges ++ ext).getD ei default)
      = (getState P u).edges.map (fun ei => P.edges.getD ei default) := by
  apply List.map_congr_left
  intro ei hei
  have hst : getState P u ∈ P.states := getD_mem _ _ _ hu
  exact getD_append_left _ _ _ _ (hc.1 _ hst _ hei)

/-! ## Chain-shape lemmas -/

theorem contigChain_congr {P Q : NFAPool} (h : ∀ u, edgesOf P u = edgesOf Q u) :
    ∀ (bytes : List Nat) (n : Nat), contigChain P n bytes = contigChain Q n bytes := by
  intro bytes
  induction bytes with
  | nil => intro n; simp [contigChain, h]
  | cons b rest ih => intro n; simp [contigChain, h, ih]

theorem contig_edges {P : NFAPool} :
    ∀ (bytes : List Nat) (n : Nat), contigChain P n bytes = true →
    ∀ j, j < bytes.length →
      edgesOf P (n + j) = [⟨n + j + 1, bytes.getD j 0⟩] := by
  intro bytes
  induction bytes with
  | nil => intro n _ j hj; simp at hj
  | cons b rest ih =>
    intro n h j hj
    simp only [contigChain, Bool.and_eq_true, beq_iff_eq] at h
    match j with
    | 0 => simpa using h.1
    | Nat.succ j2 =>
      have := ih (n + 1) h.2 j2 (by simpa using hj)
      simp only [List.getD_cons_succ]
      have harr : n + Nat.succ j2 = n + 1 + j2 := by omega
      rw [harr]
      exact this

theorem contig_last {P : NFAPool} :
    ∀ (bytes : List Nat) (n : Nat), contigChain P n bytes = true →
    edgesOf P (n + bytes.length) = [] := by
  intro bytes
  induction bytes with
  | nil => intro n h; simpa [contigChain] using h
  | cons b rest ih =>
    intro n h
    simp only [contigChain, Bool.and_eq_true, beq_iff_eq] at h
    have := ih (n + 1) h.2
    have harr : n + (b :: rest).length = n + 1 + rest.length := by simp only [List.length_cons]; omega
    rw [harr]
    exact this

theorem contig_reach {P : NFAPool} :
    ∀ (bytes : List Nat) (n : Nat), contigChain P n bytes = true →
    ∀ v, Reach P n v ↔ (n ≤ v ∧ v ≤ n + bytes.length) := by
  intro bytes
  induction bytes with
  | nil =>
    intro n h v
    simp only [contigChain, beq_iff_eq] at h
    constructor
    · intro hr
      cases hr with
      | refl => omega
      | head e _ =>
        obtain ⟨ed, hm, _⟩ := e
        rw [h] at hm
        cases hm
    · intro hv
      have : v = n := by simpa using Nat.le_antisymm hv.2 hv.1
      subst this
      exact Reach.refl _
  | cons b rest ih =>
    intro n h v
    simp only [contigChain, Bool.and_eq_true, beq_iff_eq] at h
    constructor
    · intro hr
      cases hr with
      | refl => simp
      | head e hrest =>
        obtain ⟨ed, hm, ht⟩ := e
        rw [h.1] at hm
        simp at hm
        subst hm
        subst ht
        have hv2 := (ih (n + 1) h.2 v).mp (by simpa using hrest)
        simp only [List.length_cons]
        omega
    · intro hv
      by_cases hvn : v = n
      · subst hvn; exact Reach.refl _
      · have hstep : EdgeTo P n (n + 1) := by
          refine ⟨⟨n + 1, b⟩, ?_, rfl⟩
          rw [h.1]; simp
        refine Reach.head hstep ((ih (n + 1) h.2 v).mpr ?_)
        simp only [List.length_cons] at hv
        omega

theorem contig_spell {P : NFAPool} :
    ∀ (bytes : List Nat) (n : Nat), contigChain P n bytes = true →
    (∀ b ∈ bytes, b ≠ 0) →
    ∀ w, Spell P n w (n + bytes.length) ↔ w = bytes := by
  intro bytes
  induction bytes with
  | nil =>
    intro n h _ w
    simp only [contigChain, beq_iff_eq] at h
    constructor
    · intro hs
      cases hs with
      | nil => rfl
      | eps he _ => rw [h] at he; cases he
      | sym he _ _ => rw [h] at he; cases he
    · intro hw
      subst hw
      simpa using Spell.nil n

  | cons b rest ih =>
    intro n h hnz w
    simp only [contigChain, Bool.and_eq_true, beq_iff_eq] at h
    have hb : b ≠ 0 := hnz b (by simp)
    have hnz2 : ∀ x ∈ rest, x ≠ 0 := fun x hx => hnz x (by simp [hx])
    constructor
    · intro hs
      cases hs with
      | eps he _ =>
        rw [h.1] at he
        simp at he
        exact absurd he.2.symm hb
      | sym he hc hrest =>
        rw [h.1] at he
        simp at he
        obtain ⟨hv, hcb⟩ := he
        subst hv
        have harr : n + (b :: rest).length = n + 1 + rest.length := by simp only [List.length_cons]; omega
        rw [harr] at hrest
        have hw := (ih (n + 1) h.2 hnz2 _).mp hrest
        rw [hw, hcb]
    · intro hw
      subst hw
      have hstep : (⟨n + 1, b⟩ : NFAEdge) ∈ edgesOf P n := by rw [h.1]; simp
      have harr : n + (b :: rest).length = n + 1 + rest.length := by simp only [List.length_cons]; omega
      rw [harr]
      exact Spell.sym hstep hb ((ih (n + 1) h.2 hnz2 rest).mpr rfl)

theorem spell_snoc_eps {P : NFAPool} {u v t : Nat} {w : List Nat}
    (h : Spell P u w v) (he : (⟨t, 0⟩ : NFAEdge) ∈ edgesOf P v) : Spell P u w t := by
  induction h with
  | nil => exact Spell.eps he (Spell.nil t)
  | eps h1 _ ih => exact Spell.eps h1 (ih he)
  | sym h1 h2 _ ih => exact Spell.sym h1 h2 (ih he)

theorem Reach.snoc {P : NFAPool} {u v t : Nat} (h : Reach P u v) (he : EdgeTo P v t) :
    Reach P u t := h.trans (Reach.single he)

/-! ## Consequences of OrShape: reachability, uniqueness, language -/

theorem orShape_edgeSub {P P2 : NFAPool} {A B : NFA} (hsh : OrShape P A B P2) :
    EdgeSub P P2 := by
  intro u e he
  by_cases hu : u < P.states.length
  · by_cases h1 : u = A.accepting
    · subst h1
      rw [hsh.eAcc]
      exact List.mem_append_left _ he
    · by_cases h2 : u = B.accepting
      · subst h2
        rw [hsh.eBcc]
        exact List.mem_append_left _ he
      · rw [hsh.eOld u hu h1 h2]
        exact he
  · rw [edgesOf_len_le (Nat.le_of_not_lt hu)] at he
    cases he

theorem orShape_reach_na {P P2 : NFAPool} {A B : NFA} (hsh : OrShape P A B P2) :
    ∀ v, Reach P2 (P.states.length + 1) v → v = P.states.length + 1 := by
  intro v h
  cases h with
  | refl => rfl
  | head e _ =>
    obtain ⟨ed, he, _⟩ := e
    rw [hsh.eNa] at he
    cases he

theorem orShape_reach_A {P P2 : NFAPool} {A B : NFA} (hsh : OrShape P A B P2)
    (hc : Closed P) (hA1 : A.start < P.states.length)
    (hsep : Separated P A B) (hBacc : Reach P B.start B.accepting) :
    ∀ u v, Reach P2 u v → Reach P A.start u →
      (Reach P A.start v ∨ v = P.states.length + 1) := by
  intro u v h
  induction h with
  | refl => exact fun hu => Or.inl hu
  | @head a b c e r ih =>
    intro ha
    have halt : a < P.states.length := reach_lt hc ha hA1
    obtain ⟨ed, he, ht⟩ := e
    by_cases h1 : a = A.accepting
    · subst h1
      rw [hsh.eAcc] at he
      rcases List.mem_append.mp he with hmem | hmem
      · exact ih (ht ▸ (ha.snoc ⟨ed, hmem, rfl⟩))
      · simp at hmem
        subst hmem
        subst ht
        right
        exact orShape_reach_na hsh c r
    · by_cases h2 : a = B.accepting
      · exact absurd hBacc (fun hB => hsep a ha (h2 ▸ hB))
      · rw [hsh.eOld a halt h1 h2] at he
        exact ih (ht ▸ (ha.snoc ⟨ed, he, rfl⟩))

theorem orShape_reach_B {P P2 : NFAPool} {A B : NFA} (hsh : OrShape P A B P2)
    (hc : Closed P) (hB1 : B.start < P.states.length)
    (hsep : Separated P A B) (hAacc : Reach P A.start A.accepting) :
    ∀ u v, Reach P2 u v → Reach P B.start u →
      (Reach P B.start v ∨ v = P.states.length + 1) := by
  intro u v h
  induction h with
  | refl => exact fun hu => Or.inl hu
  | @head a b c e r ih =>
    intro ha
    have halt : a < P.states.length := reach_lt hc ha hB1
    obtain ⟨ed, he, ht⟩ := e
    by_cases h2 : a = B.accepting
    · subst h2
      rw [hsh.eBcc] at he
      rcases List.mem_append.mp he with hmem | hmem
      · exact ih (ht ▸ (ha.snoc ⟨ed, hmem, rfl⟩))
      · simp at hmem
        subst hmem
        subst ht
        right
        exact orShape_reach_na hsh c r
    · by_cases h1 : a = A.accepting
      · exact absurd ha (fun hB => hsep a (h1 ▸ hAacc) hB)
      · rw [hsh.eOld a halt h1 h2] at he
        exact ih (ht ▸ (ha.snoc ⟨ed, he, rfl⟩))

theorem orShape_reach {P P2 : NFAPool} {A B : NFA} (hsh : OrShape P A B P2)
    (hc : Closed P) (hA1 : A.start < P.states.length) (hB1 : B.start < P.states.length)
    (hsep : Separated P A B)
    (hAacc : Reach P A.start A.accepting) (hBacc : Reach P B.start B.accepting) :
    ∀ v, Reach P2 P.states.length v ↔
      (v = P.states.length ∨ v = P.states.length + 1
        ∨ Reach P A.start v ∨ Reach P B.start v) := by
  intro v
  constructor
  · intro h
    cases h with
    | refl => exact Or.inl rfl
    | head e r =>
      obtain ⟨ed, he, ht⟩ := e
      rw [hsh.eNs] at he
      simp at he
      rcases he with he | he
      · subst he
        rcases orShape_reach_A hsh hc hA1 hsep hBacc _ _ (ht ▸ r) (Reach.refl _) with h | h
        · exact Or.inr (Or.inr (Or.inl h))
        · exact Or.inr (Or.inl h)
      · subst he
        rcases orShape_reach_B hsh hc hB1 hsep hAacc _ _ (ht ▸ r) (Reach.refl _) with h | h
        · exact Or.inr (Or.inr (Or.inr h))
        · exact Or.inr (Or.inl h)
  · intro h
    have hstepA : EdgeTo P2 P.states.length A.start := by
      refine ⟨⟨A.start, 0⟩, ?_, rfl⟩
      rw [hsh.eNs]
      simp
    have hstepB : EdgeTo P2 P.states.length B.start := by
      refine ⟨⟨B.start, 0⟩, ?_, rfl⟩
      rw [hsh.eNs]
      simp
    rcases h with rfl | rfl | h | h
    · exact Reach.refl _
    · refine Reach.head hstepA (((hAacc.mono (orShape_edgeSub hsh)).snoc ?_))
      refine ⟨⟨P.states.length + 1, 0⟩, ?_, rfl⟩
      rw [hsh.eAcc]
      simp
    · exact Reach.head hstepA (h.mono (orShape_edgeSub hsh))
    · exact Reach.head hstepB (h.mono (orShape_edgeSub hsh))

theorem or_uniqueSA {P P2 : NFAPool} {A B : NFA} (hsh : OrShape P A B P2)
    (hc : Closed P)
    (hA1 : A.start < P.states.length) (hB1 : B.start < P.states.length)
    (hsep : Separated P A B)
    (hAacc : Reach P A.start A.accepting) (hBacc : Reach P B.start B.accepting)
    (hwAs : ∀ s, Reach P A.start s → stype P s = NFAStateType.start → s = A.start)
    (hwAa : ∀ s, Reach P A.start s → stype P s = NFAStateType.accepting → s = A.accepting)
    (hwBs : ∀ s, Reach P B.start s → stype P s = NFAStateType.start → s = B.start)
    (hwBa : ∀ s, Reach P B.start s → stype P s = NFAStateType.accepting → s = B.accepting) :
    UniqueSA P2 ⟨P.states.length, P.states.length + 1⟩ := by
  have hchar := orShape_reach hsh hc hA1 hB1 hsep hAacc hBacc
  refine ⟨hsh.tNs, hsh.tNa, (hchar _).mpr (Or.inr (Or.inl rfl)), ?_, ?_⟩
  · intro s hr hst
    rcases (hchar s).mp hr with rfl | rfl | h | h
    · rfl
    · rw [hsh.tNa] at hst
      cases hst
    · exfalso
      have hlt : s < P.states.length := reach_lt hc h hA1
      by_cases e1 : s = A.start
      · rw [e1, hsh.tAs] at hst; cases hst
      by_cases e2 : s = A.accepting
      · rw [e2, hsh.tAa] at hst; cases hst
      by_cases e3 : s = B.start
      · rw [e3, hsh.tBs] at hst; cases hst
      by_cases e4 : s = B.accepting
      · rw [e4, hsh.tBa] at hst; cases hst
      rw [hsh.tOld s hlt e1 e2 e3 e4] at hst
      exact e1 (hwAs s h hst)
    · exfalso
      have hlt : s < P.states.length := reach_lt hc h hB1
      by_cases e1 : s = A.start
      · rw [e1, hsh.tAs] at hst; cases hst
      by_cases e2 : s = A.accepting
      · rw [e2, hsh.tAa] at hst; cases hst
      by_cases e3 : s = B.start
      · rw [e3, hsh.tBs] at hst; cases hst
      by_cases e4 : s = B.accepting
      · rw [e4, hsh.tBa] at hst; cases hst
      rw [hsh.tOld s hlt e1 e2 e3 e4] at hst
      exact e3 (hwBs s h hst)
  · intro s hr hst
    rcases (hchar s).mp hr with rfl | rfl | h | h
    · rw [hsh.tNs] at hst
      cases hst
    · rfl
    · exfalso
      have hlt : s < P.states.length := reach_lt hc h hA1
      by_cases e1 : s = A.start
      · rw [e1, hsh.tAs] at hst; cases hst
      by_cases e2 : s = A.accepting
      · rw [e2, hsh.tAa] at hst; cases hst
      by_cases e3 : s = B.start
      · rw [e3, hsh.tBs] at hst; cases hst
      by_cases e4 : s = B.accepting
      · rw [e4, hsh.tBa] at hst; cases hst
      rw [hsh.tOld s hlt e1 e2 e3 e4] at hst
      exact e2 (hwAa s h hst)
    · exfalso
      have hlt : s < P.states.length := reach_lt hc h hB1
      by_cases e1 : s = A.start
      · rw [e1, hsh.tAs] at hst; cases hst
      by_cases e2 : s = A.accepting
      · rw [e2, hsh.tAa] at hst; cases hst
      by_cases e3 : s = B.start
      · rw [e3, hsh.tBs] at hst; cases hst
      by_cases e4 : s = B.accepting
      · rw [e4, hsh.tBa] at hst; cases hst
      rw [hsh.tOld s hlt e1 e2 e3 e4] at hst
      exact e4 (hwBa s h hst)

theorem orShape_spell_na {P P2 : NFAPool} {A B : NFA} (hsh : OrShape P A B P2) :
    ∀ w v, Spell P2 (P.states.length + 1) w v → w = [] ∧ v = P.states.length + 1 := by
  intro w v h
  cases h with
  | nil => exact ⟨rfl, rfl⟩
  | eps he _ =>
    rw [hsh.eNa] at he
    cases he
  | sym he _ _ =>
    rw [hsh.eNa] at he
    cases he

theorem orShape_spell_A {P P2 : NFAPool} {A B : NFA} (hsh : OrShape P A B P2)
    (hc : Closed P) (hA1 : A.start < P.states.length)
    (hsep : Separated P A B) (hBacc : Reach P B.start B.accepting) :
    ∀ u w v, Spell P2 u w v → Reach P A.start u → v = P.states.length + 1 →
      Spell P u w A.accepting := by
  intro u w v h
  induction h with
  | nil =>
    intro ha hv
    have := reach_lt hc ha hA1
    omega
  | @eps a b c w2 he hrest ih =>
    intro ha hv
    have halt : a < P.states.length := reach_lt hc ha hA1
    by_cases h1 : a = A.accepting
    · subst h1
      rw [hsh.eAcc] at he
      rcases List.mem_append.mp he with hmem | hmem
      · exact Spell.eps hmem (ih (ha.snoc ⟨_, hmem, rfl⟩) hv)
      · simp at hmem
        subst hmem
        have hw := (orShape_spell_na hsh w2 c hrest).1
        subst hw
        exact Spell.nil _
    · by_cases h2 : a = B.accepting
      · exact absurd hBacc (fun hB => hsep a ha (h2 ▸ hB))
      · rw [hsh.eOld a halt h1 h2] at he
        exact Spell.eps he (ih (ha.snoc ⟨_, he, rfl⟩) hv)
  | @sym a b c cc w2 he hcc hrest ih =>
    intro ha hv
    have halt : a < P.states.length := reach_lt hc ha hA1
    by_cases h1 : a = A.accepting
    · subst h1
      rw [hsh.eAcc] at he
      rcases List.mem_append.mp he with hmem | hmem
      · exact Spell.sym hmem hcc (ih (ha.snoc ⟨_, hmem, rfl⟩) hv)
      · simp at hmem
        exact absurd hmem.2 hcc
    · by_cases h2 : a = B.accepting
      · exact absurd hBacc (fun hB => hsep a ha (h2 ▸ hB))
      · rw [hsh.eOld a halt h1 h2] at he
        exact Spell.sym he hcc (ih (ha.snoc ⟨_, he, rfl⟩) hv)

theorem orShape_spell_B {P P2 : NFAPool} {A B : NFA} (hsh : OrShape P A B P2)
    (hc : Closed P) (hB1 : B.start < P.states.length)
    (hsep : Separated P A B) (hAacc : Reach P A.start A.accepting) :
    ∀ u w v, Spell P2 u w v → Reach P B.start u → v = P.states.length + 1 →
      Spell P u w B.accepting := by
  intro u w v h
  induction h with
  | nil =>
    intro ha hv
    have := reach_lt hc ha hB1
    omega
  | @eps a b c w2 he hrest ih =>
    intro ha hv
    have halt : a < P.states.length := reach_lt hc ha hB1
    by_cases h2 : a = B.accepting
    · subst h2
      rw [hsh.eBcc] at he
      rcases List.mem_append.mp he with hmem | hmem
      · exact Spell.eps hmem (ih (ha.snoc ⟨_, hmem, rfl⟩) hv)
      · simp at hmem
        subst hmem
        have hw := (orShape_spell_na hsh w2 c hrest).1
        subst hw
        exact Spell.nil _
    · by_cases h1 : a = A.accepting
      · exact absurd ha (fun hB => hsep a (h1 ▸ hAacc) hB)
      · rw [hsh.eOld a halt h1 h2] at he
        exact Spell.eps he (ih (ha.snoc ⟨_, he, rfl⟩) hv)
  | @sym a b c cc w2 he hcc hrest ih =>
    intro ha hv
    have halt : a < P.states.length := reach_lt hc ha hB1
    by_cases h2 : a = B.accepting
    · subst h2
      rw [hsh.eBcc] at he
      rcases List.mem_append.mp he with hmem | hmem
      · exact Spell.sym hmem hcc (ih (ha.snoc ⟨_, hmem, rfl⟩) hv)
      · simp at hmem
        exact absurd hmem.2 hcc
    · by_cases h1 : a = A.accepting
      · exact absurd ha (fun hB => hsep a (h1 ▸ hAacc) hB)
      · rw [hsh.eOld a halt h1 h2] at he
        exact Spell.sym he hcc (ih (ha.snoc ⟨_, he, rfl⟩) hv)

theorem orShape_spell_start {P P2 : NFAPool} {A B : NFA} (hsh : OrShape P A B P2)
    (hc : Closed P) (hA1 : A.start < P.states.length) (hB1 : B.start < P.states.length)
    (hsep : Separated P A B)
    (hAacc : Reach P A.start A.accepting) (hBacc : Reach P B.start B.accepting) :
    ∀ u w v, Spell P2 u w v → u = P.states.length → v = P.states.length + 1 →
      Spell P A.start w A.accepting ∨ Spell P B.start w B.accepting := by
  intro u w v h
  cases h with
  | nil =>
    intro h1 h2
    omega
  | @eps a b c w2 he hrest =>
    intro h1 h2
    subst h1
    rw [hsh.eNs] at he
    simp at he
    rcases he with rfl | rfl
    · exact Or.inl (orShape_spell_A hsh hc hA1 hsep hBacc _ _ _ hrest (Reach.refl _) h2)
    · exact Or.inr (orShape_spell_B hsh hc hB1 hsep hAacc _ _ _ hrest (Reach.refl _) h2)
  | @sym a b c cc w2 he hcc hrest =>
    intro h1 h2
    subst h1
    rw [hsh.eNs] at he
    simp at he
    rcases he with ⟨_, hz⟩ | ⟨_, hz⟩
    · exact absurd hz hcc
    · exact absurd hz hcc

theorem orShape_lang {P P2 : NFAPool} {A B : NFA} (hsh : OrShape P A B P2)
    (hc : Closed P) (hA1 : A.start < P.states.length) (hB1 : B.start < P.states.length)
    (hsep : Separated P A B)
    (hAacc : Reach P A.start A.accepting) (hBacc : Reach P B.start B.accepting) :
    ∀ w, Spell P2 P.states.length w (P.states.length + 1) ↔
      (Spell P A.start w A.accepting ∨ Spell P B.start w B.accepting) := by
  intro w
  constructor
  · intro h
    exact orShape_spell_start hsh hc hA1 hB1 hsep hAacc hBacc _ _ _ h rfl rfl
  · intro h
    rcases h with h | h
    · refine Spell.eps (v := A.start) ?_ ?_
      · rw [hsh.eNs]
        simp
      · refine spell_snoc_eps (spell_mono (orShape_edgeSub hsh) h) ?_
        rw [hsh.eAcc]
        simp
    · refine Spell.eps (v := B.start) ?_ ?_
      · rw [hsh.eNs]
        simp
      · refine spell_snoc_eps (spell_mono (orShape_edgeSub hsh) h) ?_
        rw [hsh.eBcc]
        simp

/-! ## Consequences of ConcatShape -/

theorem concatShape_edgeSub {P P2 : NFAPool} {A B : NFA} (hsh : ConcatShape P A B P2) :
    EdgeSub P P2 := by
  intro u e he
  by_cases h1 : u = A.accepting
  · subst h1
    rw [hsh.eAcc]
    exact List.mem_append_left _ he
  · rw [hsh.eOld u h1]
    exact he

theorem concat_reach_B {P P2 : NFAPool} {A B : NFA} (hsh : ConcatShape P A B P2)
    (hsep : Separated P A B) (hAacc : Reach P A.start A.accepting) :
    ∀ u v, Reach P2 u v → Reach P B.start u → Reach P B.start v := by
  intro u v h
  induction h with
  | refl => exact id
  | @head a b c e r ih =>
    intro ha
    obtain ⟨ed, he, ht⟩ := e
    by_cases h1 : a = A.accepting
    · exact absurd ha (fun hB => hsep a (h1 ▸ hAacc) hB)
    · rw [hsh.eOld a h1] at he
      exact ih (ha.snoc ⟨ed, he, ht⟩)

theorem concat_reach_A {P P2 : NFAPool} {A B : NFA} (hsh : ConcatShape P A B P2)
    (hsep : Separated P A B) (hAacc : Reach P A.start A.accepting) :
    ∀ u v, Reach P2 u v → Reach P A.start u →
      (Reach P A.start v ∨ Reach P B.start v) := by
  intro u v h
  induction h with
  | refl => exact fun hu => Or.inl hu
  | @head a b c e r ih =>
    intro ha
    obtain ⟨ed, he, ht⟩ := e
    by_cases h1 : a = A.accepting
    · subst h1
      rw [hsh.eAcc] at he
      rcases List.mem_append.mp he with hmem | hmem
      · exact ih (ha.snoc ⟨ed, hmem, ht⟩)
      · simp at hmem
        have hb : b = B.start := by rw [← ht, hmem]
        subst hb
        exact Or.inr (concat_reach_B hsh hsep hAacc _ _ r (Reach.refl _))
    · rw [hsh.eOld a h1] at he
      exact ih (ha.snoc ⟨ed, he, ht⟩)

theorem concat_reach {P P2 : NFAPool} {A B : NFA} (hsh : ConcatShape P A B P2)
    (hsep : Separated P A B) (hAacc : Reach P A.start A.accepting) :
    ∀ v, Reach P2 A.start v ↔ (Reach P A.start v ∨ Reach P B.start v) := by
  intro v
  constructor
  · intro h
    exact concat_reach_A hsh hsep hAacc _ _ h (Reach.refl _)
  · have hmid : Reach P2 A.start B.start := by
      refine (hAacc.mono (concatShape_edgeSub hsh)).snoc ⟨⟨B.start, 0⟩, ?_, rfl⟩
      rw [hsh.eAcc]
      simp
    intro h
    rcases h with h | h
    · exact h.mono (concatShape_edgeSub hsh)
    · exact hmid.trans (h.mono (concatShape_edgeSub hsh))

theorem concat_uniqueSA {P P2 : NFAPool} {A B : NFA} (hsh : ConcatShape P A B P2)
    (hsep : Separated P A B)
    (hAacc : Reach P A.start A.accepting) (hBacc : Reach P B.start B.accepting)
    (hAs : stype P A.start = NFAStateType.start)
    (hBa : stype P B.accepting = NFAStateType.accepting)
    (hAne : A.start ≠ A.accepting) (hBne : B.start ≠ B.accepting)
    (hwAs : ∀ s, Reach P A.start s → stype P s = NFAStateType.start → s = A.start)
    (hwAa : ∀ s, Reach P A.start s → stype P s = NFAStateType.accepting → s = A.accepting)
    (hwBs : ∀ s, Reach P B.start s → stype P s = NFAStateType.start → s = B.start)
    (hwBa : ∀ s, Reach P B.start s → stype P s = NFAStateType.accepting → s = B.accepting) :
    UniqueSA P2 ⟨A.start, B.accepting⟩ := by
  have hchar := concat_reach hsh hsep hAacc
  have hAsBs : A.start ≠ B.start :=
    fun hco => hsep A.start (Reach.refl _) (hco ▸ Reach.refl _)
  have hAaBa : B.accepting ≠ A.accepting :=
    fun hco => hsep B.accepting (hco ▸ hAacc) hBacc
  refine ⟨?_, ?_, ?_, ?_, ?_⟩
  · show stype P2 A.start = NFAStateType.start
    rw [hsh.tOld A.start hAne hAsBs]
    exact hAs
  · show stype P2 B.accepting = NFAStateType.accepting
    rw [hsh.tOld B.accepting hAaBa (fun hco => hBne hco.symm)]
    exact hBa
  · exact (hchar B.accepting).mpr (Or.inr hBacc)
  · intro s hr hst
    rcases (hchar s).mp hr with h | h
    · by_cases e1 : s = A.accepting
      · rw [e1, hsh.tAa] at hst; cases hst
      by_cases e2 : s = B.start
      · rw [e2, hsh.tBs] at hst; cases hst
      rw [hsh.tOld s e1 e2] at hst
      exact hwAs s h hst
    · exfalso
      by_cases e1 : s = A.accepting
      · rw [e1, hsh.tAa] at hst; cases hst
      by_cases e2 : s = B.start
      · rw [e2, hsh.tBs] at hst; cases hst
      rw [hsh.tOld s e1 e2] at hst
      exact e2 (hwBs s h hst)
  · intro s hr hst
    rcases (hchar s).mp hr with h | h
    · exfalso
      by_cases e1 : s = A.accepting
      · rw [e1, hsh.tAa] at hst; cases hst
      by_cases e2 : s = B.start
      · rw [e2, hsh.tBs] at hst; cases hst
      rw [hsh.tOld s e1 e2] at hst
      exact e1 (hwAa s h hst)
    · by_cases e1 : s = A.accepting
      · rw [e1, hsh.tAa] at hst; cases hst
      by_cases e2 : s = B.start
      · rw [e2, hsh.tBs] at hst; cases hst
      rw [hsh.tOld s e1 e2] at hst
      exact hwBa s h hst

/-! ## Consequences of ClosureShape -/

theorem closureShape_edgeSub {P P2 : NFAPool} {A : NFA} (hsh : ClosureShape P A P2) :
    EdgeSub P P2 := by
  intro u e he
  by_cases hu : u < P.states.length
  · by_cases h1 : u = A.accepting
    · subst h1
      rw [hsh.eAcc]
      exact List.mem_append_left _ he
    · rw [hsh.eOld u hu h1]
      exact he
  · rw [edgesOf_len_le (Nat.le_of_not_lt hu)] at he
    cases he

theorem closure_reach_na {P P2 : NFAPool} {A : NFA} (hsh : ClosureShape P A P2) :
    ∀ v, Reach P2 (P.states.length + 1) v → v = P.states.length + 1 := by
  intro v h
  cases h with
  | refl => rfl
  | head e _ =>
    obtain ⟨ed, he, _⟩ := e
    rw [hsh.eNa] at he
    cases he

theorem closure_reach_A {P P2 : NFAPool} {A : NFA} (hsh : ClosureShape P A P2)
    (hc : Closed P) (hA1 : A.start < P.states.length) :
    ∀ u v, Reach P2 u v → Reach P A.start u →
      (Reach P A.start v ∨ v = P.states.length + 1) := by
  intro u v h
  induction h with
  | refl => exact fun hu => Or.inl hu
  | @head a b c e r ih =>
    intro ha
    have halt : a < P.states.length := reach_lt hc ha hA1
    obtain ⟨ed, he, ht⟩ := e
    by_cases h1 : a = A.accepting
    · subst h1
      rw [hsh.eAcc] at he
      rcases List.mem_append.mp he with hmem | hmem
      · exact ih (ht ▸ (ha.snoc ⟨ed, hmem, rfl⟩))
      · simp at hmem
        rcases hmem with hmem | hmem
        · have hb : b = A.start := by rw [← ht, hmem]
          subst hb
          exact ih (Reach.refl _)
        · have hb : b = P.states.length + 1 := by rw [← ht, hmem]
          subst hb
          exact Or.inr (closure_reach_na hsh c r)
    · rw [hsh.eOld a halt h1] at he
      exact ih (ht ▸ (ha.snoc ⟨ed, he, rfl⟩))

theorem closure_reach {P P2 : NFAPool} {A : NFA} (hsh : ClosureShape P A P2)
    (hc : Closed P) (hA1 : A.start < P.states.length) :
    ∀ v, Reach P2 P.states.length v ↔
      (v = P.states.length ∨ v = P.states.length + 1 ∨ Reach P A.start v) := by
  intro v
  have hstepA : EdgeTo P2 P.states.length A.start := by
    refine ⟨⟨A.start, 0⟩, ?_, rfl⟩
    rw [hsh.eNs]
    simp
  constructor
  · intro h
    cases h with
    | refl => exact Or.inl rfl
    | head e r =>
      obtain ⟨ed, he, ht⟩ := e
      subst ht
      rw [hsh.eNs] at he
      simp at he
      rcases he with he | he
      · subst he
        rcases closure_reach_A hsh hc hA1 _ _ r (Reach.refl _) with h | h
        · exact Or.inr (Or.inr h)
        · exact Or.inr (Or.inl h)
      · subst he
        exact Or.inr (Or.inl (closure_reach_na hsh _ r))
  · intro h
    rcases h with rfl | rfl | h
    · exact Reach.refl _
    · refine Reach.single ⟨⟨P.states.length + 1, 0⟩, ?_, rfl⟩
      rw [hsh.eNs]
      simp
    · exact Reach.head hstepA (h.mono (closureShape_edgeSub hsh))

theorem closure_uniqueSA {P P2 : NFAPool} {A : NFA} (hsh : ClosureShape P A P2)
    (hc : Closed P) (hA1 : A.start < P.states.length)
    (hwAs : ∀ s, Reach P A.start s → stype P s = NFAStateType.start → s = A.start)
    (hwAa : ∀ s, Reach P A.start s → stype P s = NFAStateType.accepting → s = A.accepting) :
    UniqueSA P2 ⟨P.states.length, P.states.length + 1⟩ := by
  have hchar := closure_reach hsh hc hA1
  refine ⟨hsh.tNs, hsh.tNa, (hchar _).mpr (Or.inr (Or.inl rfl)), ?_, ?_⟩
  · intro s hr hst
    rcases (hchar s).mp hr with rfl | rfl | h
    · rfl
    · rw [hsh.tNa] at hst
      cases hst
    · exfalso
      have hlt : s < P.states.length := reach_lt hc h hA1
      by_cases e1 : s = A.start
      · rw [e1, hsh.tAs] at hst; cases hst
      by_cases e2 : s = A.accepting
      · rw [e2, hsh.tAa] at hst; cases hst
      rw [hsh.tOld s hlt e1 e2] at hst
      exact e1 (hwAs s h hst)
  · intro s hr hst
    rcases (hchar s).mp hr with rfl | rfl | h
    · rw [hsh.tNs] at hst
      cases hst
    · rfl
    · exfalso
      have hlt : s < P.states.length := reach_lt hc h hA1
      by_cases e1 : s = A.start
      · rw [e1, hsh.tAs] at hst; cases hst
      by_cases e2 : s = A.accepting
      · rw [e2, hsh.tAa] at hst; cases hst
      rw [hsh.tOld s hlt e1 e2] at hst
      exact e2 (hwAa s h hst)

theorem chainStepPool_len (P : NFAPool) (prev b : Nat) :
    (chainStepPool P prev b).states.length = P.states.length + 1 := by
  simp [chainStepPool, new_edge, new_state]

theorem chainStepPool_edges (P : NFAPool) (prev b : Nat) :
    (chainStepPool P prev b).edges = P.edges ++ [⟨P.states.length, b⟩] := rfl

theorem chainStepPool_nfas (P : NFAPool) (prev b : Nat) :
    (chainStepPool P prev b).nfas = P.nfas := rfl

theorem chainStepPool_get_other {P : NFAPool} {prev u : Nat} (b : Nat)
    (hu : u ≠ prev) (hul : u < P.states.length) :
    getState (chainStepPool P prev b) u = getState P u := by
  unfold chainStepPool getState
  rw [getD_set_other _ _ _ (fun h => hu h.symm)]
  exact getD_append_left _ _ _ _ hul

theorem chainStepPool_get_new {P : NFAPool} {prev : Nat} (b : Nat)
    (hp : prev < P.states.length) :
    getState (chainStepPool P prev b) P.states.length
      = ⟨[], NFAStateType.internal⟩ := by
  unfold chainStepPool getState
  rw [getD_set_other _ _ _ (by omega)]
  show (P.states ++ [(⟨[], NFAStateType.internal⟩ : NFAState)]).getD P.states.length default = _
  rw [getD_append_right _ _ _ _ (Nat.le_refl _)]
  simp

theorem chainStepPool_get_prev {P : NFAPool} {prev : Nat} (b : Nat)
    (hp : prev < P.states.length) :
    getState (chainStepPool P prev b) prev
      = { getState P prev with edges := [P.edges.length] } := by
  unfold chainStepPool
  show ((new_edge (new_state P NFAStateType.internal).2 _ b).2.states.set prev _).getD prev
      default = _
  rw [getD_set_self]
  · have h1 : getState (new_edge (new_state P NFAStateType.internal).2
        (new_state P NFAStateType.internal).1 b).2 prev
        = getState (new_state P NFAStateType.internal).2 prev := rfl
    have h2 : getState (new_state P NFAStateType.internal).2 prev = getState P prev := by
      rw [getState_new_state, if_pos hp]
    show { getState (new_edge (new_state P NFAStateType.internal).2
        (new_state P NFAStateType.internal).1 b).2 prev with
        edges := [(new_edge (new_state P NFAStateType.internal).2
          (new_state P NFAStateType.internal).1 b).1] } = _
    rw [h1, h2]
    rfl
  · show prev < (new_state P NFAStateType.internal).2.states.length
    rw [new_state_states_len]
    omega

theorem terminalChain_spec :
    ∀ (bytes : List Nat) (P : NFAPool) (prev : Nat),
    prev + 1 = P.states.length →
    (getState P prev).edges = [] →
    ∃ P2, terminalChain P prev bytes = Except.ok (prev + bytes.length, P2) ∧
      P2.states.length = P.states.length + bytes.length ∧
      P2.nfas = P.nfas ∧
      (∃ t, P2.edges = P.edges ++ t) ∧
      (∀ u, u < prev → getState P2 u = getState P u) ∧
      (getState P2 prev).type = (getState P prev).type ∧
      (∀ k, k < bytes.length → (getState P2 (prev + 1 + k)).type = NFAStateType.internal) ∧
      contigChain P2 prev bytes = true := by
  intro bytes
  induction bytes with
  | nil =>
    intro P prev hlen hemp
    refine ⟨P, rfl, by simp, rfl, ⟨[], by simp⟩, fun u _ => rfl, rfl,
      by intro k hk; simp at hk, ?_⟩
    simp [contigChain, edgesOf, hemp]
  | cons b rest ih =>
    intro P prev hlen hemp
    have hprevlt : prev < P.states.length := by omega
    have hGa : getState (new_state P NFAStateType.internal).2 prev = getState P prev := by
      rw [getState_new_state, if_pos hprevlt]
    have hlen2 : prev + 1 + 1 = (chainStepPool P prev b).states.length := by
      rw [chainStepPool_len]; omega
    have hemp2 : (getState (chainStepPool P prev b) (prev + 1)).edges = [] := by
      rw [hlen, chainStepPool_get_new b hprevlt]
    obtain ⟨P2, hrun, hl, hnf, ⟨t, ht⟩, hold, hprevty, hint, hchain⟩ :=
      ih (chainStepPool P prev b) (prev + 1) hlen2 hemp2
    have holdPrev : getState P2 prev = getState (chainStepPool P prev b) prev :=
      hold prev (Nat.lt_succ_self _)
    refine ⟨P2, ?_, ?_, ?_, ?_, ?_, ?_, ?_, ?_⟩
    · show terminalChain P prev (b :: rest) = _
      unfold terminalChain
      rw [if_neg (by rw [hGa, hemp]; simp)]
      have harr : prev + 1 + rest.length = prev + (b :: rest).length := by simp only [List.length_cons]; omega
      rw [show (new_state P NFAStateType.internal).1 = P.states.length from rfl, ← hlen]
      rw [hrun, harr]
    · rw [hl, chainStepPool_len]
      simp only [List.length_cons]
      omega
    · rw [hnf, chainStepPool_nfas]
    · refine ⟨⟨P.states.length, b⟩ :: t, ?_⟩
      rw [ht, chainStepPool_edges]
      simp
    · intro u hu
      rw [hold u (by omega), chainStepPool_get_other b (by omega) (by omega)]
    · rw [holdPrev, chainStepPool_get_prev b hprevlt]
    · intro k hk
      match k with
      | 0 =>
        show (getState P2 (prev + 1 + 0)).type = _
        rw [show prev + 1 + 0 = prev + 1 from rfl, hprevty, hlen,
          chainStepPool_get_new b hprevlt]
      | Nat.succ k2 =>
        have := hint k2 (by simpa using hk)
        have harr : prev + 1 + Nat.succ k2 = prev + 1 + 1 + k2 := by omega
        rw [harr]
        exact this
    · show contigChain P2 prev (b :: rest) = true
      have h1 : edgesOf P2 prev = [⟨prev + 1, b⟩] := by
        unfold edgesOf
        rw [holdPrev, chainStepPool_get_prev b hprevlt]
        show [P2.edges.getD P.edges.length default] = _
        rw [ht, chainStepPool_edges]
        rw [getD_append_left _ _ _ _ (by simp)]
        rw [getD_append_right _ _ _ _ (Nat.le_refl _)]
        simp
        omega
      simp only [contigChain, Bool.and_eq_true, beq_iff_eq]
      exact ⟨h1, hchain⟩

/-! ## Shape of build_or_nfa's result -/

theorem or_spec {P P2 : NFAPool} {i j : Nat}
    (hres : build_or_nfa P i j = Except.ok P2) (hij : i ≠ j) (hc : Closed P)
    (hi : i < P.nfas.length)
    (hA1 : (getNfa P i).start < P.states.length)
    (hA2 : (getNfa P i).accepting < P.states.length)
    (hB1 : (getNfa P j).start < P.states.length)
    (hB2 : (getNfa P j).accepting < P.states.length)
    (hAB : (getNfa P i).accepting ≠ (getNfa P j).accepting) :
    getNfa P2 i = ⟨P.states.length, P.states.length + 1⟩
      ∧ OrShape P (getNfa P i) (getNfa P j) P2 := by
  unfold build_or_nfa at hres
  rw [if_neg hij] at hres
  dsimp only at hres
  rw [show getNfa (new_state (new_state P NFAStateType.start).2 NFAStateType.accepting).2 i
      = getNfa P i from rfl] at hres
  rw [show getNfa (new_state (new_state P NFAStateType.start).2 NFAStateType.accepting).2 j
      = getNfa P j from rfl] at hres
  rw [show (new_state P NFAStateType.start).1 = P.states.length from rfl] at hres
  rw [show (new_state (new_state P NFAStateType.start).2 NFAStateType.accepting).1
      = P.states.length + 1 from new_state_states_len P NFAStateType.start] at hres
  set A := getNfa P i with hA
  set B := getNfa P j with hB
  set n := P.states.length with hn
  set Pb := (new_state (new_state P NFAStateType.start).2 NFAStateType.accepting).2 with hPb
  set P3 := update_state_type Pb A.start NFAStateType.internal with hP3
  set P4 := update_state_type P3 A.accepting NFAStateType.internal with hP4
  set P5 := update_state_type P4 B.start NFAStateType.internal with hP5
  set P6 := update_state_type P5 B.accepting NFAStateType.internal with hP6
  have hP6edges : P6.edges = P.edges := rfl
  have hP6len : P6.states.length = n + 2 := by
    rw [hP6, hP5, hP4, hP3, hPb]
    simp [update_state_type, new_state]
  rw [show (new_edge P6 A.start 0).1 = P.edges.length from rfl] at hres
  set P6a := (new_edge P6 A.start 0).2 with hP6a
  have hP6aedges : P6a.edges = P.edges ++ [⟨A.start, 0⟩] := rfl
  rw [show (new_edge P6a B.start 0).1 = P.edges.length + 1 from (by
    show P6a.edges.length = _
    rw [hP6aedges]
    simp)] at hres
  set P6b := (new_edge P6a B.start 0).2 with hP6b
  have hP6bedges : P6b.edges = (P.edges ++ [⟨A.start, 0⟩]) ++ [⟨B.start, 0⟩] := rfl
  set P7 := setTwoEdges P6b n P.edges.length (P.edges.length + 1) with hP7
  have hP7edges : P7.edges = (P.edges ++ [⟨A.start, 0⟩]) ++ [⟨B.start, 0⟩] := rfl
  rw [show (new_edge P7 (n + 1) 0).1 = P.edges.length + 2 from (by
    show P7.edges.length = _
    rw [hP7edges]
    simp)] at hres
  set P7a := (new_edge P7 (n + 1) 0).2 with hP7a
  set P8 := pushEdge P7a A.accepting (P.edges.length + 2) with hP8
  have hP8edges : P8.edges = ((P.edges ++ [⟨A.start, 0⟩]) ++ [⟨B.start, 0⟩]) ++ [⟨n + 1, 0⟩] := rfl
  rw [show (new_edge P8 (n + 1) 0).1 = P.edges.length + 3 from (by
    show P8.edges.length = _
    rw [hP8edges]
    simp)] at hres
  set P8a := (new_edge P8 (n + 1) 0).2 with hP8a
  set P9 := pushEdge P8a B.accepting (P.edges.length + 3) with hP9
  have hP2 : P2 = setNfa P9 i ⟨n, n + 1⟩ := (Except.ok.inj hres).symm
  -- the final edge pool
  have hP9edges : P9.edges
      = P.edges ++ [⟨A.start, 0⟩, ⟨B.start, 0⟩, ⟨n + 1, 0⟩, ⟨n + 1, 0⟩] := by
    show P8a.edges = _
    rw [show P8a.edges = P8.edges ++ [⟨n + 1, 0⟩] from rfl, hP8edges]
    simp
  have hP7aLen : P7a.states.length = n + 2 := by
    rw [hP7a]
    show P7.states.length = _
    rw [hP7, setTwoEdges_states_len, hP6b]
    show P6a.states.length = _
    rw [hP6a]
    show P6.states.length = _
    exact hP6len
  have hP8aLen : P8a.states.length = n + 2 := by
    rw [hP8a]
    show P8.states.length = _
    rw [hP8, pushEdge_states_len]
    exact hP7aLen
  have hP9len : P9.states.length = n + 2 := by
    rw [hP9, pushEdge_states_len]
    exact hP8aLen
  have hP2states : P2.states = P9.states := by rw [hP2]; rfl
  have hP2edges : P2.edges = P9.edges := by rw [hP2]; rfl
  -- getState on the final pool, per state of interest
  have hgNs : getState P9 n = ⟨[P.edges.length, P.edges.length + 1], NFAStateType.start⟩ := by
    rw [hP9, pushEdge_get_other _ (by omega : n ≠ B.accepting), hP8a]
    rw [show getState (new_edge P8 (n + 1) 0).2 n = getState P8 n from rfl]
    rw [hP8, pushEdge_get_other _ (by omega : n ≠ A.accepting), hP7a]
    rw [show getState (new_edge P7 (n + 1) 0).2 n = getState P7 n from rfl]
    rw [hP7, setTwoEdges_get_self _ _ (by rw [show P6b.states.length = P6.states.length from rfl, hP6len]; omega)]
    rw [hP6b]
    rw [show getState (new_edge P6a B.start 0).2 n = getState P6a n from rfl, hP6a]
    rw [show getState (new_edge P6 A.start 0).2 n = getState P6 n from rfl]
    rw [hP6, getState_update_state_type]
    rw [if_neg (by intro hcon; exact absurd hcon.1.symm (by omega : ¬ B.accepting = n))]
    rw [hP5, getState_update_state_type]
    rw [if_neg (by intro hcon; exact absurd hcon.1.symm (by omega : ¬ B.start = n))]
    rw [hP4, getState_update_state_type]
    rw [if_neg (by intro hcon; exact absurd hcon.1.symm (by omega : ¬ A.accepting = n))]
    rw [hP3, getState_update_state_type]
    rw [if_neg (by intro hcon; exact absurd hcon.1.symm (by omega : ¬ A.start = n))]
    rw [hPb, getState_new_state]
    rw [if_pos (by rw [new_state_states_len]; omega)]
    rw [getState_new_state, if_neg (by omega), if_pos rfl]
  have hgNa : getState P9 (n + 1) = ⟨[], NFAStateType.accepting⟩ := by
    rw [hP9, pushEdge_get_other _ (by omega : n + 1 ≠ B.accepting), hP8a]
    rw [show getState (new_edge P8 (n + 1) 0).2 (n + 1) = getState P8 (n + 1) from rfl]
    rw [hP8, pushEdge_get_other _ (by omega : n + 1 ≠ A.accepting), hP7a]
    rw [show getState (new_edge P7 (n + 1) 0).2 (n + 1) = getState P7 (n + 1) from rfl]
    rw [hP7, setTwoEdges_get_other _ _ (by omega : n + 1 ≠ n)]
    rw [hP6b]
    rw [show getState (new_edge P6a B.start 0).2 (n + 1) = getState P6a (n + 1) from rfl, hP6a]
    rw [show getState (new_edge P6 A.start 0).2 (n + 1) = getState P6 (n + 1) from rfl]
    rw [hP6, getState_update_state_type]
    rw [if_neg (by intro hcon; exact absurd hcon.1.symm (by omega : ¬ B.accepting = n + 1))]
    rw [hP5, getState_update_state_type]
    rw [if_neg (by intro hcon; exact absurd hcon.1.symm (by omega : ¬ B.start = n + 1))]
    rw [hP4, getState_update_state_type]
    rw [if_neg (by intro hcon; exact absurd hcon.1.symm (by omega : ¬ A.accepting = n + 1))]
    rw [hP3, getState_update_state_type]
    rw [if_neg (by intro hcon; exact absurd hcon.1.symm (by omega : ¬ A.start = n + 1))]
    rw [hPb, getState_new_state]
    rw [if_neg (by rw [new_state_states_len]; omega)]
    rw [if_pos (by rw [new_state_states_len])]
  -- edge lists of the old states, through the construction
  have hedgesRetypes : ∀ u, (getState P6 u).edges = (getState Pb u).edges := by
    intro u
    rw [hP6, update_state_type_get_edges, hP5, update_state_type_get_edges,
      hP4, update_state_type_get_edges, hP3, update_state_type_get_edges]
  have hedgesOld : ∀ u, u < n → (getState Pb u).edges = (getState P u).edges := by
    intro u hu
    rw [hPb, getState_new_state, if_pos (by rw [new_state_states_len]; omega),
      getState_new_state, if_pos hu]
  have hgOldP9 : ∀ u, u < n → u ≠ A.accepting → u ≠ B.accepting →
      (getState P9 u).edges = (getState P u).edges := by
    intro u hu hua hub
    rw [hP9, pushEdge_get_other _ hub, hP8a]
    rw [show getState (new_edge P8 (n + 1) 0).2 u = getState P8 u from rfl]
    rw [hP8, pushEdge_get_other _ hua, hP7a]
    rw [show getState (new_edge P7 (n + 1) 0).2 u = getState P7 u from rfl]
    rw [hP7, setTwoEdges_get_other _ _ (by omega : u ≠ n)]
    rw [hP6b]
    rw [show getState (new_edge P6a B.start 0).2 u = getState P6a u from rfl, hP6a]
    rw [show getState (new_edge P6 A.start 0).2 u = getState P6 u from rfl]
    rw [hedgesRetypes, hedgesOld u hu]
  have hgAccP9 : (getState P9 A.accepting).edges
      = (getState P A.accepting).edges ++ [P.edges.length + 2] := by
    rw [hP9, pushEdge_get_other _ hAB, hP8a]
    rw [show getState (new_edge P8 (n + 1) 0).2 A.accepting = getState P8 A.accepting from rfl]
    rw [hP8, pushEdge_get_self _ (by rw [hP7aLen]; omega)]
    show (getState P7a A.accepting).edges ++ _ = _
    rw [hP7a, show getState (new_edge P7 (n + 1) 0).2 A.accepting
      = getState P7 A.accepting from rfl]
    rw [hP7, setTwoEdges_get_other _ _ (by omega : A.accepting ≠ n)]
    rw [hP6b, show getState (new_edge P6a B.start 0).2 A.accepting
      = getState P6a A.accepting from rfl, hP6a]
    rw [show getState (new_edge P6 A.start 0).2 A.accepting = getState P6 A.accepting from rfl]
    rw [hedgesRetypes, hedgesOld _ (by omega)]
  have hgBccP9 : (getState P9 B.accepting).edges
      = (getState P B.accepting).edges ++ [P.edges.length + 3] := by
    rw [hP9, pushEdge_get_self _ (by rw [hP8aLen]; omega)]
    show (getState P8a B.accepting).edges ++ _ = _
    rw [hP8a, show getState (new_edge P8 (n + 1) 0).2 B.accepting
      = getState P8 B.accepting from rfl]
    rw [hP8, pushEdge_get_other _ (fun hcon => hAB hcon.symm), hP7a]
    rw [show getState (new_edge P7 (n + 1) 0).2 B.accepting = getState P7 B.accepting from rfl]
    rw [hP7, setTwoEdges_get_other _ _ (by omega : B.accepting ≠ n)]
    rw [hP6b, show getState (new_edge P6a B.start 0).2 B.accepting
      = getState P6a B.accepting from rfl, hP6a]
    rw [show getState (new_edge P6 A.start 0).2 B.accepting = getState P6 B.accepting from rfl]
    rw [hedgesRetypes, hedgesOld _ (by omega)]
  -- state types
  have hPbLen : Pb.states.length = n + 2 := by
    rw [hPb, new_state_states_len, new_state_states_len]
  have hstP9P6 : ∀ u, stype P9 u = stype P6 u := by
    intro u
    rw [hP9, stype_pushEdge, hP8a,
      show stype (new_edge P8 (n + 1) 0).2 u = stype P8 u from rfl,
      hP8, stype_pushEdge, hP7a,
      show stype (new_edge P7 (n + 1) 0).2 u = stype P7 u from rfl,
      hP7, stype_setTwoEdges, hP6b,
      show stype (new_edge P6a B.start 0).2 u = stype P6a u from rfl, hP6a,
      show stype (new_edge P6 A.start 0).2 u = stype P6 u from rfl]
  have hstAs : stype P6 A.start = NFAStateType.internal := by
    have t3 : stype P3 A.start = NFAStateType.internal := by
      rw [hP3]
      exact stype_update_cascade (Or.inr ⟨rfl, by rw [hPbLen]; omega⟩)
    have t4 : stype P4 A.start = NFAStateType.internal := by
      rw [hP4]
      exact stype_update_cascade (Or.inl t3)
    have t5 : stype P5 A.start = NFAStateType.internal := by
      rw [hP5]
      exact stype_update_cascade (Or.inl t4)
    rw [hP6]
    exact stype_update_cascade (Or.inl t5)
  have hstAa : stype P6 A.accepting = NFAStateType.internal := by
    have t4 : stype P4 A.accepting = NFAStateType.internal := by
      rw [hP4]
      refine stype_update_cascade (Or.inr ⟨rfl, ?_⟩)
      rw [hP3, update_state_type_states_len, hPbLen]
      omega
    have t5 : stype P5 A.accepting = NFAStateType.internal := by
      rw [hP5]
      exact stype_update_cascade (Or.inl t4)
    rw [hP6]
    exact stype_update_cascade (Or.inl t5)
  have hstBs : stype P6 B.start = NFAStateType.internal := by
    have t5 : stype P5 B.start = NFAStateType.internal := by
      rw [hP5]
      refine stype_update_cascade (Or.inr ⟨rfl, ?_⟩)
      rw [hP4, update_state_type_states_len, hP3, update_state_type_states_len, hPbLen]
      omega
    rw [hP6]
    exact stype_update_cascade (Or.inl t5)
  have hstBa : stype P6 B.accepting = NFAStateType.internal := by
    rw [hP6]
    refine stype_update_cascade (Or.inr ⟨rfl, ?_⟩)
    rw [hP5, update_state_type_states_len, hP4, update_state_type_states_len,
      hP3, update_state_type_states_len, hPbLen]
    omega
  have hstOld : ∀ u, u < n → u ≠ A.start → u ≠ A.accepting → u ≠ B.start →
      u ≠ B.accepting → stype P6 u = stype P u := by
    intro u hu h1 h2 h3 h4
    rw [hP6, stype_update_state_type, if_neg (fun hcon => h4 hcon.1)]
    rw [hP5, stype_update_state_type, if_neg (fun hcon => h3 hcon.1)]
    rw [hP4, stype_update_state_type, if_neg (fun hcon => h2 hcon.1)]
    rw [hP3, stype_update_state_type, if_neg (fun hcon => h1 hcon.1)]
    rw [hPb, stype_new_state_old (by rw [new_state_states_len]; omega),
      stype_new_state_old hu]
  -- assemble
  have hedgesOfP2 : ∀ u, edgesOf P2 u
      = (getState P9 u).edges.map (fun ei => P9.edges.getD ei default) := by
    intro u
    unfold edgesOf getState
    rw [hP2states, hP2edges]
  have hstP2 : ∀ u, stype P2 u = stype P9 u := by
    intro u
    unfold stype getState
    rw [hP2states]
  have hext : P9.edges = P.edges
      ++ [⟨A.start, 0⟩, ⟨B.start, 0⟩, ⟨n + 1, 0⟩, ⟨n + 1, 0⟩] := hP9edges
  refine ⟨?_, ?_, ?_, ?_, ?_, ?_, ?_, ?_, ?_, ?_, ?_, ?_, ?_, ?_⟩
  · rw [hP2]
    show (P9.nfas.set i _).getD i default = _
    rw [getD_set_self]
    show i < P.nfas.length
    exact hi
  · rw [show P2.states.length = P9.states.length from by rw [hP2states], hP9len]
  · rw [hedgesOfP2, hgNs]
    show [P9.edges.getD P.edges.length default, P9.edges.getD (P.edges.length + 1) default] = _
    rw [hext]
    rw [getD_append_right _ _ _ _ (Nat.le_refl _),
      getD_append_right _ _ _ _ (by omega : P.edges.length ≤ P.edges.length + 1)]
    simp
  · rw [hedgesOfP2, hgNa]
    rfl
  · rw [hedgesOfP2, hgAccP9, hext]
    rw [List.map_append]
    rw [map_getD_append_of_closed hc (by omega)]
    show edgesOf P A.accepting ++ _ = _
    simp only [List.map_cons, List.map_nil]
    rw [getD_append_right _ _ _ _ (by omega : P.edges.length ≤ P.edges.length + 2)]
    simp [Nat.add_sub_cancel_left]
  · rw [hedgesOfP2, hgBccP9, hext]
    rw [List.map_append]
    rw [map_getD_append_of_closed hc (by omega)]
    show edgesOf P B.accepting ++ _ = _
    simp only [List.map_cons, List.map_nil]
    rw [getD_append_right _ _ _ _ (by omega : P.edges.length ≤ P.edges.length + 3)]
    simp [Nat.add_sub_cancel_left]
  · intro u hu hua hub
    rw [hedgesOfP2, hgOldP9 u hu hua hub, hext]
    rw [map_getD_append_of_closed hc hu]
    rfl
  · rw [hstP2]
    unfold stype
    rw [hgNs]
  · rw [hstP2]
    unfold stype
    rw [hgNa]
  · rw [hstP2, hstP9P6, hstAs]
  · rw [hstP2, hstP9P6, hstAa]
  · rw [hstP2, hstP9P6, hstBs]
  · rw [hstP2, hstP9P6, hstBa]
  · intro u hu h1 h2 h3 h4
    rw [hstP2, hstP9P6, hstOld u hu h1 h2 h3 h4]

/-! ## Shape of build_concat_nfa's result -/

theorem concat_spec {P P2 : NFAPool} {i j : Nat}
    (hres : build_concat_nfa P i j = Except.ok P2) (hij : i ≠ j) (hc : Closed P)
    (hi : i < P.nfas.length)
    (hA2 : (getNfa P i).accepting < P.states.length)
    (hB1 : (getNfa P j).start < P.states.length) :
    getNfa P2 i = ⟨(getNfa P i).start, (getNfa P j).accepting⟩
      ∧ ConcatShape P (getNfa P i) (getNfa P j) P2 := by
  unfold build_concat_nfa at hres
  rw [if_neg hij] at hres
  dsimp only at hres
  set A := getNfa P i with hA
  set B := getNfa P j with hB
  set n := P.states.length with hn
  set P1 := update_state_type P A.accepting NFAStateType.internal with hP1
  rw [show (new_edge P1 B.start 0).1 = P.edges.length from rfl] at hres
  set P1a := (new_edge P1 B.start 0).2 with hP1a
  set Pp := pushEdge P1a A.accepting P.edges.length with hPp
  set P3 := setNfa Pp i { A with accepting := B.accepting } with hP3s
  have hP2 : P2 = update_state_type P3 B.start NFAStateType.internal :=
    (Except.ok.inj hres).symm
  have hPpEdges : Pp.edges = P.edges ++ [⟨B.start, 0⟩] := rfl
  have hP3Edges : P3.edges = P.edges ++ [⟨B.start, 0⟩] := rfl
  have hP2edges : P2.edges = P.edges ++ [⟨B.start, 0⟩] := by
    rw [hP2]
    show P3.edges = _
    exact hP3Edges
  have hP1aLen : P1a.states.length = n := by
    rw [hP1a]
    show P1.states.length = _
    rw [hP1, update_state_type_states_len]
  have hPpLen : Pp.states.length = n := by
    rw [hPp, pushEdge_states_len]
    exact hP1aLen
  have hP3Len : P3.states.length = n := by
    rw [hP3s]
    show Pp.states.length = _
    exact hPpLen
  have hP2len : P2.states.length = n := by
    rw [hP2, update_state_type_states_len]
    exact hP3Len
  have hgAcc : (getState P2 A.accepting).edges
      = (getState P A.accepting).edges ++ [P.edges.length] := by
    rw [hP2, update_state_type_get_edges]
    show (getState Pp A.accepting).edges = _
    rw [hPp, pushEdge_get_self _ (by rw [hP1aLen]; omega)]
    show (getState P1a A.accepting).edges ++ _ = _
    rw [hP1a, show getState (new_edge P1 B.start 0).2 A.accepting
      = getState P1 A.accepting from rfl]
    rw [hP1, update_state_type_get_edges]
  have hgOld : ∀ u, u ≠ A.accepting → (getState P2 u).edges = (getState P u).edges := by
    intro u hu
    rw [hP2, update_state_type_get_edges]
    show (getState Pp u).edges = _
    rw [hPp, pushEdge_get_other _ hu, hP1a,
      show getState (new_edge P1 B.start 0).2 u = getState P1 u from rfl,
      hP1, update_state_type_get_edges]
  have hedgesOfP2 : ∀ u, edgesOf P2 u
      = (getState P2 u).edges.map (fun ei => P2.edges.getD ei default) := fun _ => rfl
  refine ⟨?_, ?_, ?_, ?_, ?_, ?_, ?_⟩
  · rw [hP2]
    show P3.nfas.getD i default = _
    rw [hP3s]
    show (Pp.nfas.set i _).getD i default = _
    rw [getD_set_self]
    show i < P.nfas.length
    exact hi
  · exact hP2len
  · rw [hedgesOfP2, hgAcc, hP2edges, List.map_append,
      map_getD_append_of_closed hc (by omega)]
    show edgesOf P A.accepting ++ _ = _
    simp only [List.map_cons, List.map_nil]
    rw [getD_append_right _ _ _ _ (Nat.le_refl _), Nat.sub_self]
    rfl
  · intro u hu
    by_cases hun : u < n
    · rw [hedgesOfP2, hgOld u hu, hP2edges, map_getD_append_of_closed hc hun]
      rfl
    · have hle : P.states.length ≤ u := by omega
      have h1 : edgesOf P2 u = [] := edgesOf_len_le (by rw [hP2len]; exact hle)
      have h2 : edgesOf P u = [] := edgesOf_len_le hle
      rw [h1, h2]
  · rw [hP2]
    have t1 : stype P1 A.accepting = NFAStateType.internal := by
      rw [hP1]
      exact stype_update_cascade (Or.inr ⟨rfl, hA2⟩)
    have t2 : stype P3 A.accepting = NFAStateType.internal := by
      rw [hP3s]
      show stype Pp A.accepting = _
      rw [hPp, stype_pushEdge, hP1a,
        show stype (new_edge P1 B.start 0).2 A.accepting = stype P1 A.accepting from rfl]
      exact t1
    exact stype_update_cascade (Or.inl t2)
  · rw [hP2]
    refine stype_update_cascade (Or.inr ⟨rfl, ?_⟩)
    rw [hP3Len]
    omega
  · intro u h1 h2
    rw [hP2, stype_update_state_type, if_neg (fun hcon => h2 hcon.1)]
    rw [hP3s]
    show stype Pp u = _
    rw [hPp, stype_pushEdge, hP1a,
      show stype (new_edge P1 B.start 0).2 u = stype P1 u from rfl,
      hP1, stype_update_state_type, if_neg (fun hcon => h1 hcon.1)]

/-! ## Shape of build_closure_nfa's result -/

theorem closure_spec {P : NFAPool} {i : Nat} (hc : Closed P)
    (hi : i < P.nfas.length)
    (hA1 : (getNfa P i).start < P.states.length)
    (hA2 : (getNfa P i).accepting < P.states.length) :
    getNfa (build_closure_nfa P i) i = ⟨P.states.length, P.states.length + 1⟩
      ∧ ClosureShape P (getNfa P i) (build_closure_nfa P i) := by
  set PF0 := build_closure_nfa P i with hres
  unfold build_closure_nfa at hres
  dsimp only at hres
  rw [show getNfa (new_state (new_state P NFAStateType.start).2 NFAStateType.accepting).2 i
      = getNfa P i from rfl] at hres
  rw [show (new_state P NFAStateType.start).1 = P.states.length from rfl] at hres
  rw [show (new_state (new_state P NFAStateType.start).2 NFAStateType.accepting).1
      = P.states.length + 1 from new_state_states_len P NFAStateType.start] at hres
  set A := getNfa P i with hA
  set n := P.states.length with hn
  set Pb := (new_state (new_state P NFAStateType.start).2 NFAStateType.accepting).2 with hPb
  set P3 := update_state_type Pb A.start NFAStateType.internal with hP3
  set P4 := update_state_type P3 A.accepting NFAStateType.internal with hP4
  have hP4edges : P4.edges = P.edges := rfl
  have hPbLen : Pb.states.length = n + 2 := by
    rw [hPb, new_state_states_len, new_state_states_len]
  have hP4len : P4.states.length = n + 2 := by
    rw [hP4, update_state_type_states_len, hP3, update_state_type_states_len]
    exact hPbLen
  rw [show (new_edge P4 A.start 0).1 = P.edges.length from rfl] at hres
  set P4a := (new_edge P4 A.start 0).2 with hP4a
  have hP4aedges : P4a.edges = P.edges ++ [⟨A.start, 0⟩] := rfl
  rw [show (new_edge P4a (n + 1) 0).1 = P.edges.length + 1 from (by
    show P4a.edges.length = _
    rw [hP4aedges]
    simp)] at hres
  set P4b := (new_edge P4a (n + 1) 0).2 with hP4b
  set P5 := setTwoEdges P4b n P.edges.length (P.edges.length + 1) with hP5
  have hP5edges : P5.edges = (P.edges ++ [⟨A.start, 0⟩]) ++ [⟨n + 1, 0⟩] := rfl
  rw [show (new_edge P5 A.start 0).1 = P.edges.length + 2 from (by
    show P5.edges.length = _
    rw [hP5edges]
    simp)] at hres
  set P5a := (new_edge P5 A.start 0).2 with hP5a
  set P6 := pushEdge P5a A.accepting (P.edges.length + 2) with hP6
  have hP6edges : P6.edges = ((P.edges ++ [⟨A.start, 0⟩]) ++ [⟨n + 1, 0⟩]) ++ [⟨A.start, 0⟩] := rfl
  rw [show (new_edge P6 (n + 1) 0).1 = P.edges.length + 3 from (by
    show P6.edges.length = _
    rw [hP6edges]
    simp)] at hres
  set P6a := (new_edge P6 (n + 1) 0).2 with hP6a
  set P7 := pushEdge P6a A.accepting (P.edges.length + 3) with hP7
  set PF := setNfa P7 i ⟨n, n + 1⟩ with hPF
  -- hres : build_closure_nfa P i = PF
  have hP7edges : P7.edges
      = P.edges ++ [⟨A.start, 0⟩, ⟨n + 1, 0⟩, ⟨A.start, 0⟩, ⟨n + 1, 0⟩] := by
    show P6a.edges = _
    rw [show P6a.edges = P6.edges ++ [⟨n + 1, 0⟩] from rfl, hP6edges]
    simp
  have hP4bLen : P4b.states.length = n + 2 := by
    rw [hP4b]
    show P4a.states.length = _
    rw [hP4a]
    show P4.states.length = _
    exact hP4len
  have hP5aLen : P5a.states.length = n + 2 := by
    rw [hP5a]
    show P5.states.length = _
    rw [hP5, setTwoEdges_states_len]
    exact hP4bLen
  have hP6aLen : P6a.states.length = n + 2 := by
    rw [hP6a]
    show P6.states.length = _
    rw [hP6, pushEdge_states_len]
    exact hP5aLen
  have hP7len : P7.states.length = n + 2 := by
    rw [hP7, pushEdge_states_len]
    exact hP6aLen
  have hPFedges : PF.edges = P7.edges := rfl
  have hPFstates : PF.states = P7.states := rfl
  have hedgesRetypes : ∀ u, (getState P4 u).edges = (getState Pb u).edges := by
    intro u
    rw [hP4, update_state_type_get_edges, hP3, update_state_type_get_edges]
  have hedgesOld : ∀ u, u < n → (getState Pb u).edges = (getState P u).edges := by
    intro u hu
    rw [hPb, getState_new_state, if_pos (by rw [new_state_states_len]; omega),
      getState_new_state, if_pos hu]
  have hgNs : getState P7 n = ⟨[P.edges.length, P.edges.length + 1], NFAStateType.start⟩ := by
    rw [hP7, pushEdge_get_other _ (by omega : n ≠ A.accepting), hP6a]
    rw [show getState (new_edge P6 (n + 1) 0).2 n = getState P6 n from rfl]
    rw [hP6, pushEdge_get_other _ (by omega : n ≠ A.accepting), hP5a]
    rw [show getState (new_edge P5 A.start 0).2 n = getState P5 n from rfl]
    rw [hP5, setTwoEdges_get_self _ _ (by rw [hP4bLen]; omega)]
    rw [hP4b, show getState (new_edge P4a (n + 1) 0).2 n = getState P4a n from rfl, hP4a]
    rw [show getState (new_edge P4 A.start 0).2 n = getState P4 n from rfl]
    rw [hP4, getState_update_state_type]
    rw [if_neg (by intro hcon; exact absurd hcon.1.symm (by omega : ¬ A.accepting = n))]
    rw [hP3, getState_update_state_type]
    rw [if_neg (by intro hcon; exact absurd hcon.1.symm (by omega : ¬ A.start = n))]
    rw [hPb, getState_new_state]
    rw [if_pos (by rw [new_state_states_len]; omega)]
    rw [getState_new_state, if_neg (by omega), if_pos rfl]
  have hgNa : getState P7 (n + 1) = ⟨[], NFAStateType.accepting⟩ := by
    rw [hP7, pushEdge_get_other _ (by omega : n + 1 ≠ A.accepting), hP6a]
    rw [show getState (new_edge P6 (n + 1) 0).2 (n + 1) = getState P6 (n + 1) from rfl]
    rw [hP6, pushEdge_get_other _ (by omega : n + 1 ≠ A.accepting), hP5a]
    rw [show getState (new_edge P5 A.start 0).2 (n + 1) = getState P5 (n + 1) from rfl]
    rw [hP5, setTwoEdges_get_other _ _ (by omega : n + 1 ≠ n)]
    rw [hP4b, show getState (new_edge P4a (n + 1) 0).2 (n + 1) = getState P4a (n + 1) from rfl,
      hP4a]
    rw [show getState (new_edge P4 A.start 0).2 (n + 1) = getState P4 (n + 1) from rfl]
    rw [hP4, getState_update_state_type]
    rw [if_neg (by intro hcon; exact absurd hcon.1.symm (by omega : ¬ A.accepting = n + 1))]
    rw [hP3, getState_update_state_type]
    rw [if_neg (by intro hcon; exact absurd hcon.1.symm (by omega : ¬ A.start = n + 1))]
    rw [hPb, getState_new_state]
    rw [if_neg (by rw [new_state_states_len]; omega)]
    rw [if_pos (by rw [new_state_states_len])]
  have hgAcc : (getState P7 A.accepting).edges
      = (getState P A.accepting).edges ++ [P.edges.length + 2, P.edges.length + 3] := by
    rw [hP7, pushEdge_get_self _ (by rw [hP6aLen]; omega)]
    show (getState P6a A.accepting).edges ++ _ = _
    rw [hP6a, show getState (new_edge P6 (n + 1) 0).2 A.accepting
      = getState P6 A.accepting from rfl]
    rw [hP6, pushEdge_get_self _ (by rw [hP5aLen]; omega)]
    show ((getState P5a A.accepting).edges ++ _) ++ _ = _
    rw [hP5a, show getState (new_edge P5 A.start 0).2 A.accepting
      = getState P5 A.accepting from rfl]
    rw [hP5, setTwoEdges_get_other _ _ (by omega : A.accepting ≠ n)]
    rw [hP4b, show getState (new_edge P4a (n + 1) 0).2 A.accepting
      = getState P4a A.accepting from rfl, hP4a]
    rw [show getState (new_edge P4 A.start 0).2 A.accepting = getState P4 A.accepting from rfl]
    rw [hedgesRetypes, hedgesOld _ (by omega)]
    simp
  have hgOld : ∀ u, u < n → u ≠ A.accepting →
      (getState P7 u).edges = (getState P u).edges := by
    intro u hu hua
    rw [hP7, pushEdge_get_other _ hua, hP6a]
    rw [show getState (new_edge P6 (n + 1) 0).2 u = getState P6 u from rfl]
    rw [hP6, pushEdge_get_other _ hua, hP5a]
    rw [show getState (new_edge P5 A.start 0).2 u = getState P5 u from rfl]
    rw [hP5, setTwoEdges_get_other _ _ (by omega : u ≠ n)]
    rw [hP4b, show getState (new_edge P4a (n + 1) 0).2 u = getState P4a u from rfl, hP4a]
    rw [show getState (new_edge P4 A.start 0).2 u = getState P4 u from rfl]
    rw [hedgesRetypes, hedgesOld u hu]
  have hstP7P4 : ∀ u, stype P7 u = stype P4 u := by
    intro u
    rw [hP7, stype_pushEdge, hP6a,
      show stype (new_edge P6 (n + 1) 0).2 u = stype P6 u from rfl,
      hP6, stype_pushEdge, hP5a,
      show stype (new_edge P5 A.start 0).2 u = stype P5 u from rfl,
      hP5, stype_setTwoEdges, hP4b,
      show stype (new_edge P4a (n + 1) 0).2 u = stype P4a u from rfl, hP4a,
      show stype (new_edge P4 A.start 0).2 u = stype P4 u from rfl]
  have hstAs : stype P4 A.start = NFAStateType.internal := by
    have t3 : stype P3 A.start = NFAStateType.internal := by
      rw [hP3]
      exact stype_update_cascade (Or.inr ⟨rfl, by rw [hPbLen]; omega⟩)
    rw [hP4]
    exact stype_update_cascade (Or.inl t3)
  have hstAa : stype P4 A.accepting = NFAStateType.internal := by
    rw [hP4]
    refine stype_update_cascade (Or.inr ⟨rfl, ?_⟩)
    rw [hP3, update_state_type_states_len, hPbLen]
    omega
  rw [hres]
  have hedgesOfPF : ∀ u, edgesOf PF u
      = (getState P7 u).edges.map (fun ei => P7.edges.getD ei default) := by
    intro u
    unfold edgesOf getState
    rw [hPFstates, hPFedges]
  have hstPF : ∀ u, stype PF u = stype P7 u := by
    intro u
    unfold stype getState
    rw [hPFstates]
  refine ⟨?_, ?_, ?_, ?_, ?_, ?_, ?_, ?_, ?_, ?_, ?_⟩
  · rw [hPF]
    show (P7.nfas.set i _).getD i default = _
    rw [getD_set_self]
    show i < P.nfas.length
    exact hi
  · rw [show PF.states.length = P7.states.length from by rw [hPFstates], hP7len]
  · rw [hedgesOfPF, hgNs]
    show [P7.edges.getD P.edges.length default, P7.edges.getD (P.edges.length + 1) default] = _
    rw [hP7edges]
    rw [getD_append_right _ _ _ _ (Nat.le_refl _),
      getD_append_right _ _ _ _ (by omega : P.edges.length ≤ P.edges.length + 1)]
    simp
  · rw [hedgesOfPF, hgNa]
    rfl
  · rw [hedgesOfPF, hgAcc, hP7edges, List.map_append,
      map_getD_append_of_closed hc (by omega)]
    show edgesOf P A.accepting ++ _ = _
    simp only [List.map_cons, List.map_nil]
    rw [getD_append_right _ _ _ _ (by omega : P.edges.length ≤ P.edges.length + 2),
      getD_append_right _ _ _ _ (by omega : P.edges.length ≤ P.edges.length + 3)]
    simp [Nat.add_sub_cancel_left]
  · intro u hu hua
    rw [hedgesOfPF, hgOld u hu hua, hP7edges, map_getD_append_of_closed hc hu]
    rfl
  · rw [hstPF]
    unfold stype
    rw [hgNs]
  · rw [hstPF]
    unfold stype
    rw [hgNa]
  · rw [hstPF, hstP7P4, hstAs]
  · rw [hstPF, hstP7P4, hstAa]
  · intro u hu h1 h2
    rw [hstPF, hstP7P4]
    rw [hP4, stype_update_state_type, if_neg (fun hcon => h2 hcon.1)]
    rw [hP3, stype_update_state_type, if_neg (fun hcon => h1 hcon.1)]
    rw [hPb, stype_new_state_old (by rw [new_state_states_len]; omega),
      stype_new_state_old hu]

theorem build_terminal_spec {P : NFAPool} {bytes : List Nat} (hb : bytes ≠ []) :
    ∃ P2, build_terminal_nfa P bytes = Except.ok (P.nfas.length, P2) ∧
      getNfa P2 P.nfas.length = ⟨P.states.length, P.states.length + bytes.length⟩ ∧
      stype P2 P.states.length = NFAStateType.start ∧
      stype P2 (P.states.length + bytes.length) = NFAStateType.accepting ∧
      (∀ k, k + 1 < bytes.length → stype P2 (P.states.length + 1 + k) = NFAStateType.internal) ∧
      contigChain P2 P.states.length bytes = true := by
  have hn1 : (new_state P NFAStateType.start).1 = P.states.length := rfl
  have hlen1 : P.states.length + 1 = (new_state P NFAStateType.start).2.states.length := by
    rw [new_state_states_len]
  have hemp1 : (getState (new_state P NFAStateType.start).2 P.states.length).edges = [] := by
    rw [getState_new_state, if_neg (Nat.lt_irrefl _), if_pos rfl]
  obtain ⟨Pc, hrun, hl, hnf, ⟨t, ht⟩, hold, hprevty, hint, hchain⟩ :=
    terminalChain_spec bytes (new_state P NFAStateType.start).2 P.states.length hlen1 hemp1
  have hblen : 1 ≤ bytes.length := by
    cases bytes with
    | nil => exact absurd rfl hb
    | cons x xs => simp
  have hPcLen : Pc.states.length = P.states.length + 1 + bytes.length := by
    rw [hl, new_state_states_len]
  have hPcNfas : Pc.nfas = P.nfas := hnf.trans rfl
  -- the pool after the final state is marked accepting
  set P3 := update_state_type Pc (P.states.length + bytes.length) NFAStateType.accepting
    with hP3
  have hP3len : P3.states.length = Pc.states.length := by
    simp [hP3, update_state_type]
  have hedgesP3 : ∀ u, edgesOf P3 u = edgesOf Pc u := fun u =>
    edgesOf_update_state_type Pc _ _ u
  -- new_nfa then allocates the orphaned fresh pair and the handle slot
  have hNfaIdx : (new_nfa P3).1 = P.nfas.length := by
    show P3.nfas.length = P.nfas.length
    rw [hP3, show (update_state_type Pc _ _).nfas = Pc.nfas from rfl, hPcNfas]
  have hfinal : build_terminal_nfa P bytes
      = Except.ok ((new_nfa P3).1, setNfa (new_nfa P3).2 (new_nfa P3).1
          ⟨P.states.length, P.states.length + bytes.length⟩) := by
    unfold build_terminal_nfa
    rw [if_neg (by simpa using hb)]
    show (match terminalChain (new_state P NFAStateType.start).2
        (new_state P NFAStateType.start).1 bytes with
      | Except.error e => Except.error e
      | Except.ok (last, P2) =>
        Except.ok ((new_nfa (update_state_type P2 last NFAStateType.accepting)).1,
          setNfa (new_nfa (update_state_type P2 last NFAStateType.accepting)).2
            (new_nfa (update_state_type P2 last NFAStateType.accepting)).1
            ⟨(new_state P NFAStateType.start).1, last⟩)) = _
    rw [hn1, hrun]
  rw [hNfaIdx] at hfinal
  set PF := setNfa (new_nfa P3).2 P.nfas.length
    ⟨P.states.length, P.states.length + bytes.length⟩ with hPF
  have hedgesPF : ∀ u, edgesOf PF u = edgesOf Pc u := by
    intro u
    have h1 : edgesOf PF u = edgesOf (new_nfa P3).2 u := rfl
    rw [h1, edgesOf_new_nfa, hedgesP3]
  have hstypePF : ∀ u, u < Pc.states.length → stype PF u = stype P3 u := by
    intro u hu
    have h1 : stype PF u = stype (new_nfa P3).2 u := rfl
    rw [h1, stype_new_nfa_old (by rw [hP3len]; exact hu)]
  have hNfasLen : (new_nfa P3).2.nfas.length = P.nfas.length + 1 := by
    show (P3.nfas ++ [_]).length = P.nfas.length + 1
    rw [show P3.nfas = Pc.nfas from rfl, hPcNfas]
    simp
  refine ⟨PF, by rw [hfinal], ?_, ?_, ?_, ?_, ?_⟩
  · show PF.nfas.getD P.nfas.length default = _
    rw [hPF]
    show ((new_nfa P3).2.nfas.set P.nfas.length _).getD P.nfas.length default = _
    rw [getD_set_self]
    rw [hNfasLen]
    omega
  · rw [hstypePF _ (by omega), hP3,
      stype_update_state_type_other _ (by omega)]
    show (getState Pc P.states.length).type = _
    rw [hprevty, getState_new_state, if_neg (Nat.lt_irrefl _), if_pos rfl]
  · rw [hstypePF _ (by omega), hP3,
      stype_update_state_type_self _ (by omega)]
  · intro k hk
    rw [hstypePF _ (by omega), hP3,
      stype_update_state_type_other _ (by omega)]
    exact hint k (by omega)
  · rw [contigChain_congr hedgesPF bytes P.states.length]
    exact hchain

/-! ## Parser lemmas: the lookup loops, operand shapes and state
invariants of part_000 -/

theorem operandNameMatch_of_take {name ob : List Char} (hle : ob.length ≤ name.length)
    (heq : name.take ob.length = ob) : operandNameMatch name ob = true := by
  unfold operandNameMatch nameBytes
  rw [List.take_append_of_le_length hle, heq]
  simp

theorem parse_operand_dangling (line : Nat) (nts : List NonTerminal) (tp : List Char)
    (col : Nat) (l : List Char)
    (h : peekc (skipSpacesNotNl l).2 = '|' ∨ peekc (skipSpacesNotNl l).2 = '*') :
    parse_operand line nts tp col l
      = Except.error (PError.danglingOperator line (col + (skipSpacesNotNl l).1)) := by
  simp only [parse_operand]
  rcases h with h | h <;> rw [h] <;> rfl

theorem headerFind_go_some {nm : List Char} :
    ∀ (l : List NonTerminal) (k i : Nat) (c : Bool),
    headerFind.go nm l k = some (i, c) →
    k ≤ i ∧ i - k < l.length ∧ (l.getD (i - k) default).complete = c := by
  intro l
  induction l with
  | nil => intro k i c h; cases h
  | cons nt rest ih =>
    intro k i c h
    unfold headerFind.go at h
    split at h
    · cases h
      refine ⟨Nat.le_refl _, ?_, ?_⟩ <;> simp [Nat.sub_self]
    · obtain ⟨h1, h2, h3⟩ := ih (k + 1) i c h
      refine ⟨by omega, by simp only [List.length_cons]; omega, ?_⟩
      have harr : i - k = (i - (k + 1)) + 1 := by omega
      rw [harr]
      simpa using h3

theorem headerFind_some {nts : List NonTerminal} {nm : List Char} {i : Nat} {c : Bool}
    (h : headerFind nts nm = some (i, c)) :
    i < nts.length ∧ (nts.getD i default).complete = c := by
  obtain ⟨h1, h2, h3⟩ := headerFind_go_some nts 0 i c h
  simp only [Nat.sub_zero] at h2 h3
  exact ⟨h2, h3⟩

theorem parse_operand_nonterms {line : Nat} {nts : List NonTerminal} {tp : List Char}
    {col : Nat} {l : List Char} {o : OperandOut}
    (h : parse_operand line nts tp col l = Except.ok o) :
    o.nonterms = nts ∨
      ∃ nm, o.nonterms = nts ++ [⟨nm, Expression.init, false, nts.length⟩] := by
  simp only [parse_operand] at h
  repeat' split at h
  all_goals try cases h
  all_goals first
    | exact Or.inl rfl
    | exact Or.inr ⟨_, rfl⟩

theorem setExpr_termPool (s : PState) (r : ExprRef) (e : Expression) :
    (setExpr s r e).termPool = s.termPool := by
  cases r <;> rfl

theorem setExpr_nonterms_pool (s : PState) (k : Nat) (e : Expression) :
    (setExpr s (ExprRef.pool k) e).nonterms = s.nonterms := rfl

theorem setExpr_nonterms_head (s : PState) (i : Nat) (e : Expression) :
    (setExpr s (ExprRef.head i) e).nonterms
      = s.nonterms.set i { s.nonterms.getD i default with headExpr := e } := rfl

theorem setExpr_exprPool_head (s : PState) (i : Nat) (e : Expression) :
    (setExpr s (ExprRef.head i) e).exprPool = s.exprPool := rfl

theorem setExpr_exprPool_pool (s : PState) (k : Nat) (e : Expression) :
    (setExpr s (ExprRef.pool k) e).exprPool = s.exprPool.set k e := rfl

/-- A predicate on the non-terminal table closed under the two ways the
body loop touches it — stub creation by parse_operand and head-node
stores — survives the whole loop. -/
theorem parse_body_loop_nonterms (lineNo : Nat) (Q : List NonTerminal → Prop)
    (hApp : ∀ (nts : List NonTerminal) nm, Q nts →
      Q (nts ++ [⟨nm, Expression.init, false, nts.length⟩]))
    (hSet : ∀ (nts : List NonTerminal) i e, Q nts →
      Q (nts.set i { nts.getD i default with headExpr := e })) :
    ∀ fuel s l p c s2 rest,
      parse_body_loop lineNo fuel s l p c = Except.ok (s2, rest) →
      Q s.nonterms → Q s2.nonterms := by
  have hQset : ∀ (s : PState) r e, Q s.nonterms → Q (setExpr s r e).nonterms := by
    intro s r e hq
    cases r with
    | head i => exact hSet _ i _ hq
    | pool k => exact hq
  intro fuel
  induction fuel with
  | zero => intro s l p c s2 rest h; cases h
  | succ f ih =>
    intro s l p c s2 rest h hQ
    simp only [parse_body_loop] at h
    cases hop : parse_operand lineNo s.nonterms s.termPool s.col l with
    | error e => rw [hop] at h; cases h
    | ok o =>
      simp only [hop] at h
      have hQ1 : Q o.nonterms := by
        rcases parse_operand_nonterms hop with hsh | ⟨nm, hsh⟩
        · rw [hsh]; exact hQ
        · rw [hsh]; exact hApp _ _ hQ
      cases hoo : o.op with
      | none =>
        simp only [hoo] at h
        split at h
        · cases h
          exact hQset _ _ _ hQ1
        · cases h
      | some op =>
        simp only [hoo] at h
        split at h
        · cases h
        · rename_i sl cur heq
          split at heq
          · split at heq
            · cases heq
            · cases heq
              split at h
              · cases h
              · exact ih _ _ _ _ _ _ h
                  (hQset _ _ _ (hQset _ _ _ (hQset _ _ _ (hQset _ _ _ (hQset _ _ _ hQ1)))))
          · cases heq
            split at h
            · cases h
            · exact ih _ _ _ _ _ _ h (hQset _ _ _ (hQset _ _ _ hQ1))

theorem parse_header_shape {s : PState} {l : List Char} {idx : Nat} {s2 : PState}
    {l2 : List Char} (h : parse_header s l = Except.ok (idx, s2, l2)) :
    s2.exprPool = s.exprPool ∧ s2.termPool = s.termPool ∧ s2.line = s.line ∧
    ∃ base nm,
      (base = s.nonterms ∨
        (base = s.nonterms ++ [(⟨[], Expression.init, false, 0⟩ : NonTerminal)] ∧
          idx = s.nonterms.length)) ∧
      idx < base.length ∧ (base.getD idx default).complete = false ∧
      s2.nonterms = base.set idx { base.getD idx default with name := nm, idx := idx } := by
  simp only [parse_header] at h
  split at h
  · cases h
  split at h
  · cases h
  split at h
  · cases h
  split at h
  · cases h
  split at h
  · cases h
  · rename_i hguard
    split at h
    · cases h
    · rename_i idx2 nts2 hfind
      split at hfind
      · rename_i i snd hf2
        cases hfind
        obtain ⟨hlt, hcf⟩ := headerFind_some hf2
        cases snd with
        | true => exact absurd hf2 (fun hco => hguard _ hco)
        | false =>
          split at h
          · cases h
          split at h
          · cases h
          split at h
          · cases h
          cases h
          exact ⟨rfl, rfl, rfl, s.nonterms, _, Or.inl rfl, hlt, hcf, rfl⟩
      · rename_i hf2
        split at hfind
        · cases hfind
        · cases hfind
          split at h
          · cases h
          split at h
          · cases h
          split at h
          · cases h
          cases h
          refine ⟨rfl, rfl, rfl, s.nonterms ++ [⟨[], Expression.init, false, 0⟩], _,
            Or.inr ⟨rfl, rfl⟩, by simp, ?_, rfl⟩
          rw [getD_append_right _ _ _ _ (Nat.le_refl _), Nat.sub_self]
          rfl

theorem idxInv_set_except {base : List NonTerminal} {i : Nat} {rec : NonTerminal}
    (h : ∀ j, j < base.length → j ≠ i → (base.getD j default).idx = j)
    (hrec : rec.idx = i) : IdxInv (base.set i rec) := by
  intro j hj
  rw [List.length_set] at hj
  by_cases hij : j = i
  · subst hij
    rw [getD_set_self _ _ _ _ hj]
    exact hrec
  · rw [getD_set_other _ _ _ (fun hco => hij hco.symm)]
    exact h j hj hij

theorem idxInv_set {nts : List NonTerminal} {i : Nat} {rec : NonTerminal}
    (h : IdxInv nts) (hrec : rec.idx = i) : IdxInv (nts.set i rec) :=
  idxInv_set_except (fun j hj _ => h j hj) hrec

theorem parse_regex_idxInv {s : PState} {l : List Char} {s2 : PState}
    (h : parse_regex s l = Except.ok s2) (hI : IdxInv s.nonterms) :
    IdxInv s2.nonterms := by
  simp only [parse_regex] at h
  split at h
  · cases h
    exact hI
  split at h
  · cases h
    exact hI
  split at h
  · cases h
  · rename_i idx s3 l3 hph
    split at h
    · cases h
    · rename_i s4 rest hpb
      cases h
      obtain ⟨_, _, _, base, nm, hbase, hblt, hbcf, hbset⟩ := parse_header_shape hph
      have hI3 : IdxInv s3.nonterms ∧ idx < s3.nonterms.length := by
        rw [hbset, List.length_set]
        refine ⟨?_, hblt⟩
        rcases hbase with hbase | ⟨hbase, hidx⟩
        · subst hbase
          exact idxInv_set_except (fun j hj _ => hI j hj) rfl
        · subst hbase
          subst hidx
          refine idxInv_set_except (fun j hj hji => ?_) rfl
          rw [List.length_append] at hj
          simp only [List.length_singleton] at hj
          have hjlt := Nat.lt_of_le_of_ne (Nat.le_of_lt_succ hj) hji
          rw [getD_append_left _ _ _ _ hjlt]
          exact hI j hjlt
      have hloop := parse_body_loop_nonterms s3.line
        (fun nts => IdxInv nts ∧ idx < nts.length)
        (by
          intro nts nm2 hq
          refine ⟨?_, ?_⟩
          · intro j hj
            rw [List.length_append] at hj
            by_cases hjl : j < nts.length
            · rw [getD_append_left _ _ _ _ hjl]
              exact hq.1 j hjl
            · have hje : j = nts.length := by
                simp only [List.length_singleton] at hj
                omega
              subst hje
              rw [getD_append_right _ _ _ _ (Nat.le_refl _), Nat.sub_self]
              rfl
          · rw [List.length_append]
            exact Nat.lt_of_lt_of_le hq.2 (Nat.le_add_right _ _))
        (by
          intro nts i e hq
          refine ⟨?_, ?_⟩
          · by_cases hi : i < nts.length
            · exact idxInv_set_except (fun j hj _ => hq.1 j hj) (hq.1 i hi)
            · rw [List.set_eq_of_length_le (Nat.le_of_not_lt hi)]
              exact hq.1
          · rw [List.length_set]
            exact hq.2)
        (l3.length + 2) s3 l3 _ _ s4 rest hpb hI3
      exact idxInv_set hloop.1 (hloop.1 idx hloop.2)

theorem parse_regex_spec_go_pred (Q : PState → Prop)
    (hstep : ∀ s l s1, parse_regex s l = Except.ok s1 → Q s → Q s1)
    (hline : ∀ (s : PState) (a b : Nat), Q s →
      Q ⟨s.nonterms, s.termPool, s.exprPool, a, b⟩) :
    ∀ lines s s2, parse_regex_spec.go lines s = Except.ok s2 → Q s → Q s2 := by
  intro lines
  induction lines with
  | nil =>
    intro s s2 h hq
    cases h
    exact hq
  | cons l rest ih =>
    intro s s2 h hq
    simp only [parse_regex_spec.go] at h
    split at h
    · cases h
    · rename_i s1 hps
      exact ih _ _ h (hstep _ _ _ hps (hline s _ _ hq))

theorem parse_regex_spec_idxInv {lines : List (List Char)} {s : PState}
    (h : parse_regex_spec lines = Except.ok s) : IdxInv s.nonterms := by
  refine parse_regex_spec_go_pred (fun st => IdxInv st.nonterms)
    (fun s l s1 hp hq => parse_regex_idxInv hp hq)
    (fun s a b hq => hq) lines ⟨[], [], [], 0, 0⟩ s h ?_
  intro i hi
  cases hi

theorem nodeOk_init : NodeOk Expression.init := by
  intro h
  cases h

theorem nodeOk_default : NodeOk (default : Expression) := nodeOk_init

theorem nodeOk_getD {l : List Expression} (h : ∀ e ∈ l, NodeOk e) (k : Nat) :
    NodeOk (l.getD k default) := by
  by_cases hk : k < l.length
  · exact h _ (getD_mem _ _ _ hk)
  · rw [getD_len_le _ _ _ (Nat.le_of_not_lt hk)]
    exact nodeOk_default

theorem poolOk_setExpr {s : PState} {r : ExprRef} {e : Expression}
    (h : ∀ x ∈ s.exprPool, NodeOk x) (he : NodeOk e) :
    ∀ x ∈ (setExpr s r e).exprPool, NodeOk x := by
  cases r with
  | head i => exact h
  | pool k =>
    intro x hx
    rcases List.mem_or_eq_of_mem_set hx with hx | rfl
    · exact h _ hx
    · exact he

theorem headsOk_setExpr {s : PState} {r : ExprRef} {e : Expression}
    (h : ∀ nt ∈ s.nonterms, nt.complete = false →
      nt.headExpr.op2Type = OperandTag.nestedExpression)
    (he : e.op2Type = OperandTag.nestedExpression) :
    ∀ nt ∈ (setExpr s r e).nonterms, nt.complete = false →
      nt.headExpr.op2Type = OperandTag.nestedExpression := by
  cases r with
  | pool k => exact h
  | head i =>
    intro nt hnt hc
    rcases List.mem_or_eq_of_mem_set hnt with hnt | rfl
    · exact h _ hnt hc
    · exact he

theorem getExpr_merge {s : PState} {o : OperandOut} (c : ExprRef) (cl : Nat)
    (hsh : o.nonterms = s.nonterms ∨
      ∃ nm, o.nonterms = s.nonterms ++ [⟨nm, Expression.init, false, s.nonterms.length⟩])
    (hr : refInRange s c) :
    getExpr { nonterms := o.nonterms, termPool := o.termPool, exprPool := s.exprPool,
              line := s.line, col := cl } c = getExpr s c ∧
    refInRange { nonterms := o.nonterms, termPool := o.termPool, exprPool := s.exprPool,
                 line := s.line, col := cl } c := by
  cases c with
  | pool k => exact ⟨rfl, hr⟩
  | head i =>
    rcases hsh with hsh | ⟨nm, hsh⟩
    · constructor
      · show (o.nonterms.getD i default).headExpr = _
        rw [hsh]
        rfl
      · show i < o.nonterms.length
        rw [hsh]
        exact hr
    · constructor
      · show (o.nonterms.getD i default).headExpr = _
        rw [hsh, getD_append_left _ _ _ _ hr]
        rfl
      · show i < o.nonterms.length
        rw [hsh, List.length_append]
        exact Nat.lt_of_lt_of_le hr (Nat.le_add_right _ _)

theorem getExpr_setExpr_self {s : PState} {r : ExprRef} {e : Expression}
    (hr : refInRange s r) : getExpr (setExpr s r e) r = e := by
  cases r with
  | head i =>
    show ((s.nonterms.set i _).getD i default).headExpr = e
    rw [getD_set_self _ _ _ _ hr]
  | pool k =>
    show (s.exprPool.set k e).getD k default = e
    exact getD_set_self _ _ _ _ hr

theorem refInRange_setExpr {s : PState} (r' : ExprRef) (e : Expression) {r : ExprRef}
    (hr : refInRange s r) : refInRange (setExpr s r' e) r := by
  cases r with
  | head i =>
    show i < (setExpr s r' e).nonterms.length
    cases r' with
    | head j => show i < (s.nonterms.set j _).length; rw [List.length_set]; exact hr
    | pool k => exact hr
  | pool k =>
    show k < (setExpr s r' e).exprPool.length
    cases r' with
    | head j => exact hr
    | pool j => show k < (s.exprPool.set j _).length; rw [List.length_set]; exact hr

theorem nodeOk_of_op2 {e : Expression} (h : e.op2Type = OperandTag.nestedExpression) :
    NodeOk e := fun hno => nomatch h.symm.trans hno

theorem poolOk_append_init {l : List Expression} (h : ∀ x ∈ l, NodeOk x) :
    ∀ x ∈ l ++ [Expression.init], NodeOk x := by
  intro x hx
  rcases List.mem_append.mp hx with hx | hx
  · exact h _ hx
  · simp at hx
    subst hx
    exact nodeOk_init

theorem getD_fresh_slot (l : List Expression) :
    (l ++ [Expression.init]).getD l.length default = Expression.init := by
  rw [getD_append_right _ _ _ _ (Nat.le_refl _), Nat.sub_self]
  rfl

theorem setExpr_exprPool_len (s : PState) (r : ExprRef) (e : Expression) :
    (setExpr s r e).exprPool.length = s.exprPool.length := by
  cases r with
  | head i => rfl
  | pool k => show (s.exprPool.set k e).length = _; rw [List.length_set]

theorem headsOk_set_op2null {s : PState} (p : ExprRef)
    (h : ∀ nt ∈ s.nonterms, nt.complete = false →
      nt.headExpr.op2Type = OperandTag.nestedExpression) :
    ∀ nt ∈ (setExpr s p { getExpr s p with op2 := Slot.null }).nonterms,
      nt.complete = false → nt.headExpr.op2Type = OperandTag.nestedExpression := by
  cases p with
  | pool k => exact h
  | head i =>
    intro nt hnt hc
    rcases List.mem_or_eq_of_mem_set hnt with hnt | rfl
    · exact h _ hnt hc
    · show (s.nonterms.getD i default).headExpr.op2Type = _
      by_cases hi : i < s.nonterms.length
      · exact h _ (getD_mem _ _ _ hi) hc
      · rw [getD_len_le _ _ _ (Nat.le_of_not_lt hi)]
        rfl

theorem getD_set_fresh {l : List Expression} {j : Nat} (e : Expression) (hj : j < l.length) :
    ((l ++ [Expression.init]).set j e).getD l.length default = Expression.init := by
  rw [getD_set_other _ _ _ (Nat.ne_of_lt hj), getD_fresh_slot]

theorem mkPState_exprPool (a : List NonTerminal) (b : List Char) (c : List Expression)
    (d e : Nat) : (⟨a, b, c, d, e⟩ : PState).exprPool = c := rfl

theorem getExpr_fresh_append (t : PState) (nts : List NonTerminal) (tpl : List Char)
    (ln cl : Nat) :
    getExpr (⟨nts, tpl, t.exprPool ++ [Expression.init], ln, cl⟩ : PState)
      (ExprRef.pool t.exprPool.length) = Expression.init := by
  show (t.exprPool ++ [Expression.init]).getD t.exprPool.length default = _
  exact getD_fresh_slot _

theorem getExpr_setExpr_pool_other {t : PState} {c : ExprRef} {e : Expression} {n : Nat}
    (hc : ∀ j, c = ExprRef.pool j → j ≠ n) :
    getExpr (setExpr t c e) (ExprRef.pool n) = getExpr t (ExprRef.pool n) := by
  cases c with
  | head i => rfl
  | pool j =>
    show (t.exprPool.set j e).getD n default = t.exprPool.getD n default
    exact getD_set_other _ _ _ (hc j rfl)

theorem refInRange_fresh (t : PState) (nts : List NonTerminal) (tpl : List Char)
    (ln cl : Nat) (c' : ExprRef) (e : Expression) :
    refInRange (setExpr (⟨nts, tpl, t.exprPool ++ [Expression.init], ln, cl⟩ : PState) c' e)
      (ExprRef.pool t.exprPool.length) := by
  show t.exprPool.length < (setExpr _ c' e).exprPool.length
  rw [setExpr_exprPool_len]
  show t.exprPool.length < (t.exprPool ++ [Expression.init]).length
  simp

/-- The body loop preserves the expression-node discipline: every pool
node keeps `NodeOk`, and incomplete head nodes keep their untouched
`op2Type`, given that the current cursor addresses an allocated node
whose `op2Type` is still the zero enumerator (and that the only time the
cursor sits on a head node is the initial one, where both cursors
coincide). -/
theorem parse_body_loop_nodeOk (lineNo : Nat) :
    ∀ fuel s l p c s2 rest,
      parse_body_loop lineNo fuel s l p c = Except.ok (s2, rest) →
      (∀ e ∈ s.exprPool, NodeOk e) →
      (∀ nt ∈ s.nonterms, nt.complete = false →
        nt.headExpr.op2Type = OperandTag.nestedExpression) →
      (getExpr s c).op2Type = OperandTag.nestedExpression →
      refInRange s c →
      (∀ i, c = ExprRef.head i → p = c) →
      (∀ e ∈ s2.exprPool, NodeOk e) ∧
      (∀ nt ∈ s2.nonterms, nt.complete = false →
        nt.headExpr.op2Type = OperandTag.nestedExpression) := by
  intro fuel
  induction fuel with
  | zero => intro s l p c s2 rest h; cases h
  | succ f ih =>
    intro s l p c s2 rest h hP hH hcur hr hpc
    simp only [parse_body_loop] at h
    cases hop : parse_operand lineNo s.nonterms s.termPool s.col l with
    | error e => rw [hop] at h; cases h
    | ok o =>
      simp only [hop] at h
      have hsh := parse_operand_nonterms hop
      have hHo : ∀ nt ∈ o.nonterms, nt.complete = false →
          nt.headExpr.op2Type = OperandTag.nestedExpression := by
        rcases hsh with hsh | ⟨nm, hsh⟩
        · rw [hsh]; exact hH
        · rw [hsh]
          intro nt hnt hc
          rcases List.mem_append.mp hnt with hnt | hnt
          · exact hH _ hnt hc
          · simp at hnt
            subst hnt
            rfl
      cases hoo : o.op with
      | none =>
        simp only [hoo] at h
        split at h
        · cases h
          constructor
          · have hd : ∀ x ∈ s.exprPool.dropLast, NodeOk x :=
              fun x hx => hP x (List.dropLast_subset _ hx)
            cases p with
            | head i => exact hd
            | pool j => exact poolOk_setExpr hd (nodeOk_getD hd j)
          · exact headsOk_set_op2null p hHo
        · cases h
      | some op =>
        simp only [hoo] at h
        obtain ⟨hge, hrg⟩ :=
          getExpr_merge (s := s) c ((parse_operator o.col o.rest).2.1) hsh hr
        have hcur1 : (getExpr (⟨o.nonterms, o.termPool, s.exprPool, s.line,
            (parse_operator o.col o.rest).2.1⟩ : PState) c).op2Type
            = OperandTag.nestedExpression := by rw [hge]; exact hcur
        cases hopc : (parse_operator o.col o.rest).1 with
        | zeroOrMore =>
          simp only [hopc] at h
          split at h
          · cases h
          · rename_i st2 l2 cur2 heq
            split at heq
            · cases heq
            · cases heq
              split at h
              · cases h
              · refine ih _ _ _ _ _ _ h ?_ ?_ ?_ ?_ ?_
                · refine poolOk_setExpr (poolOk_append_init (poolOk_setExpr
                    (poolOk_setExpr (poolOk_append_init (poolOk_setExpr
                      (poolOk_setExpr hP (nodeOk_of_op2 hcur1)) ?_))
                      (nodeOk_of_op2 (by rw [getExpr_fresh_append]; rfl)))
                    (nodeOk_of_op2 rfl))) (nodeOk_of_op2 rfl)
                  -- NodeOk of the closure node: its recorded type is the
                  -- just-written ZeroOrMore
                  intro hno
                  rw [getExpr_setExpr_self hrg]
                · cases c with
                  | head i =>
                    have hp := hpc i rfl
                    subst hp
                    simp only [setExpr_nonterms_head, setExpr_nonterms_pool, List.set_set]
                    intro nt hnt hc2
                    rcases List.mem_or_eq_of_mem_set hnt with hnt | rfl
                    · exact hHo _ hnt hc2
                    · rfl
                  | pool j => exact headsOk_setExpr (headsOk_setExpr hHo rfl) rfl
                · rw [getExpr_setExpr_pool_other (fun j hj => by cases hj; simp only [setExpr_exprPool_len, mkPState_exprPool, List.length_append, List.length_cons, List.length_nil]; omega), getExpr_fresh_append]
                  rfl
                · exact refInRange_fresh _ _ _ _ _ _ _
                · exact fun i hi => nomatch hi
        | noOp =>
          simp only [hopc] at h
          split at h
          · cases h
          · refine ih _ _ _ _ _ _ h ?_ ?_ ?_ ?_ ?_
            · exact poolOk_setExpr (poolOk_append_init (poolOk_setExpr hP
                (nodeOk_of_op2 hcur1))) (nodeOk_of_op2 rfl)
            · exact headsOk_setExpr (headsOk_setExpr hHo hcur1) rfl
            · rw [getExpr_setExpr_pool_other (fun j hj => by subst hj; rw [setExpr_exprPool_len]; exact Nat.ne_of_lt hrg), getExpr_fresh_append]
              rfl
            · exact refInRange_fresh _ _ _ _ _ _ _
            · exact fun i hi => nomatch hi
        | orOp =>
          simp only [hopc] at h
          split at h
          · cases h
          · refine ih _ _ _ _ _ _ h ?_ ?_ ?_ ?_ ?_
            · exact poolOk_setExpr (poolOk_append_init (poolOk_setExpr hP
                (nodeOk_of_op2 hcur1))) (nodeOk_of_op2 rfl)
            · exact headsOk_setExpr (headsOk_setExpr hHo hcur1) rfl
            · rw [getExpr_setExpr_pool_other (fun j hj => by subst hj; rw [setExpr_exprPool_len]; exact Nat.ne_of_lt hrg), getExpr_fresh_append]
              rfl
            · exact refInRange_fresh _ _ _ _ _ _ _
            · exact fun i hi => nomatch hi
        | andOp =>
          simp only [hopc] at h
          split at h
          · cases h
          · refine ih _ _ _ _ _ _ h ?_ ?_ ?_ ?_ ?_
            · exact poolOk_setExpr (poolOk_append_init (poolOk_setExpr hP
                (nodeOk_of_op2 hcur1))) (nodeOk_of_op2 rfl)
            · exact headsOk_setExpr (headsOk_setExpr hHo hcur1) rfl
            · rw [getExpr_setExpr_pool_other (fun j hj => by subst hj; rw [setExpr_exprPool_len]; exact Nat.ne_of_lt hrg), getExpr_fresh_append]
              rfl
            · exact refInRange_fresh _ _ _ _ _ _ _
            · exact fun i hi => nomatch hi

/-- A successfully parsed line preserves the expression-node
discipline. -/
theorem parse_regex_parseInv {s : PState} {l : List Char} {s2 : PState}
    (h : parse_regex s l = Except.ok s2) (hPI : ParseInv s) : ParseInv s2 := by
  obtain ⟨hP, hH⟩ := hPI
  simp only [parse_regex] at h
  split at h
  · cases h
    exact ⟨hP, hH⟩
  split at h
  · cases h
    exact ⟨hP, hH⟩
  split at h
  · cases h
  · rename_i idx s3 l3 hph
    split at h
    · cases h
    · rename_i s4 rest hpb
      cases h
      obtain ⟨hep, htp, hln, base, nm, hbase, hblt, hbcf, hbset⟩ := parse_header_shape hph
      have hHb : ∀ nt ∈ base, nt.complete = false →
          nt.headExpr.op2Type = OperandTag.nestedExpression := by
        rcases hbase with hbase | ⟨hbase, _⟩
        · rw [hbase]; exact hH
        · rw [hbase]
          intro nt hnt hc
          rcases List.mem_append.mp hnt with hnt | hnt
          · exact hH _ hnt hc
          · simp at hnt
            subst hnt
            rfl
      have hHd : (base.getD idx default).headExpr.op2Type
          = OperandTag.nestedExpression := hHb _ (getD_mem _ _ _ hblt) hbcf
      have hP3 : ∀ e ∈ s3.exprPool, NodeOk e := by
        rw [hep]; exact hP
      have hH3 : ∀ nt ∈ s3.nonterms, nt.complete = false →
          nt.headExpr.op2Type = OperandTag.nestedExpression := by
        rw [hbset]
        intro nt hnt hc
        rcases List.mem_or_eq_of_mem_set hnt with hnt | rfl
        · exact hHb _ hnt hc
        · exact hHd
      have hcur3 : (getExpr s3 (ExprRef.head idx)).op2Type
          = OperandTag.nestedExpression := by
        show (s3.nonterms.getD idx default).headExpr.op2Type = _
        rw [hbset, getD_set_self _ _ _ _ hblt]
        exact hHd
      have hr3 : refInRange s3 (ExprRef.head idx) := by
        show idx < s3.nonterms.length
        rw [hbset, List.length_set]
        exact hblt
      obtain ⟨hP4, hH4⟩ := parse_body_loop_nodeOk s3.line (l3.length + 2) s3 l3 _ _ s4 rest
        hpb hP3 hH3 hcur3 hr3 (fun i _ => rfl)
      refine ⟨hP4, ?_⟩
      intro nt hnt hc
      rcases List.mem_or_eq_of_mem_set hnt with hnt | rfl
      · exact hH4 _ hnt hc
      · cases hc

/-- The node discipline holds of every state the specification parser
returns. -/
theorem parse_regex_spec_parseInv {lines : List (List Char)} {s : PState}
    (h : parse_regex_spec lines = Except.ok s) : ParseInv s := by
  refine parse_regex_spec_go_pred ParseInv
    (fun s l s1 hp hq => parse_regex_parseInv hp hq)
    (fun s a b hq => hq) lines ⟨[], [], [], 0, 0⟩ s h ⟨?_, ?_⟩
  · intro e he
    cases he
  · intro nt hnt
    cases hnt

/-! ## Helpers for instantiating the well-formedness hypotheses on
concrete arenas -/

theorem uniqueSA_of_list {P : NFAPool} {h : NFA} {L : List Nat}
    (hmem : h.start ∈ L)
    (hcl : ∀ u ∈ L, ∀ e ∈ edgesOf P u, e.target ∈ L)
    (hts : stype P h.start = NFAStateType.start)
    (hta : stype P h.accepting = NFAStateType.accepting)
    (hre : Reach P h.start h.accepting)
    (hs : ∀ s ∈ L, stype P s = NFAStateType.start → s = h.start)
    (ha : ∀ s ∈ L, stype P s = NFAStateType.accepting → s = h.accepting) :
    UniqueSA P h :=
  ⟨hts, hta, hre,
    fun s hr hst => hs s (reach_subset_list hcl hr hmem) hst,
    fun s hr hst => ha s (reach_subset_list hcl hr hmem) hst⟩

theorem separated_of_lists {P : NFAPool} {a b : NFA} {M N : List Nat}
    (has : a.start ∈ M) (hbs : b.start ∈ N)
    (hcla : ∀ u ∈ M, ∀ e ∈ edgesOf P u, e.target ∈ M)
    (hclb : ∀ u ∈ N, ∀ e ∈ edgesOf P u, e.target ∈ N)
    (hdisj : ∀ x ∈ M, ¬ x ∈ N) : Separated P a b :=
  fun s hra hrb =>
    hdisj s (reach_subset_list hcla hra has) (reach_subset_list hclb hrb hbs)

/-! ## The claims -/

/-- **C1.** Refuted as stated (code bug).  The spec's escape table says
`@_` decodes to a space byte, but memcpy2 computes the table lookup into
a dead local and stores the raw byte after `@` instead: decoding `@_`
(two loop iterations) stores `'_'` (byte 95), and for the body
`@_ | @@` the terminal pool holds `'_'` and `'@'` — the second only
coincidentally agrees with the table, since `@` maps to itself. -/
theorem C1_escape_decode :
    memcpy2 1 7 "@_".toList 2 = Except.ok (['_', '\x00'], 1) ∧
    (parse_regex_spec inputEscape).map PState.termPool
      = Except.ok ['_', '\x00', '\x00', '@', '\x00', '\x00'] ∧
    (parse_regex_spec inputEscape).map
        (fun s => (termBytes s.termPool 0, termBytes s.termPool 3))
      = Except.ok ([95], [64]) := by
  decide

/-- **C2.** Refuted as stated (code bug).  build_non_terminal_nfa never
consults nontermToNFAMap (the -1 initialisation has no reader): on the
parsed table of `$x := $y` / `$y := z`, two consecutive calls for the
same non-terminal `$y` return the distinct handles 0 and then 1 rather
than replaying the recorded 0, and the full driver run leaves two
copies of the `z` chain in the arena (two edges labelled 122) with the
map recording the second. -/
theorem C2_memo_rebuild :
    (parse_regex_spec inputMemo).map (fun s =>
      match build_non_terminal_nfa s 8 1 ⟨NFAPool.empty, [-1, -1]⟩ with
      | Except.ok (h1, st1) =>
        match build_non_terminal_nfa s 8 1 st1 with
        | Except.ok (h2, st2) => some (h1, st1.map, h2, st2.map)
        | Except.error _ => none
      | Except.error _ => none)
      = Except.ok (some (0, [-1, 0], 1, [-1, 1])) ∧
    (parseAndBuild inputMemo 32).map (fun st =>
      ((st.pool.edges.filter (fun e => e.symbol == 122)).length, st.pool.nfas, st.map))
      = some (2, [⟨8, 9⟩, ⟨4, 5⟩], [0, 1]) := by
  decide

/-- **C3** (counterexample).  The driver does not process non-terminals
in the order their *definitions* appear: on `$a := $c` / `$b := x` /
`$c := y`, the table (and hence processing) order is `$a, $c, $b` —
`$c` received its index at its forward reference — while the
definition-line order is `$a, $b, $c`. -/
theorem C3_defn_order_counterexample :
    (parse_regex_spec inputOrder).map tableNames
      = Except.ok ["$a".toList, "$c".toList, "$b".toList] ∧
    headerNames inputOrder = ["$a".toList, "$b".toList, "$c".toList] ∧
    (parse_regex_spec inputOrder).map tableNames
      ≠ Except.ok (headerNames inputOrder) := by
  decide

/-- **C3** (amended).  The driver processes non-terminals, and unions
their NFAs into index 0, in table-index order — the order names are
*first mentioned* (as a definition or as a forward reference inside an
earlier body): every table record stores its own position as assigned
at first mention, and on the reordering input the processing order is
`$a, $c, $b`, not the definition order. -/
theorem C3_first_mention_order :
    (∀ lines s, parse_regex_spec lines = Except.ok s →
      ∀ i, i < s.nonterms.length → (s.nonterms.getD i default).idx = i) ∧
    (parse_regex_spec inputOrder).map tableNames
      = Except.ok ["$a".toList, "$c".toList, "$b".toList] ∧
    headerNames inputOrder = ["$a".toList, "$b".toList, "$c".toList] := by
  refine ⟨?_, by decide, by decide⟩
  intro lines s h i hi
  exact parse_regex_spec_idxInv h i hi

/-- **C4** (counterexample).  The claimed equivalence fails right-to-left:
after parsing `$x := a b`, the final pool node has type NoOp (which the
claim puts in the Nothing class) yet its `op2Type` is still
NestedExpression — the rollback nulls the `op2` pointer but never
touches the tag. -/
theorem C4_counterexample :
    (parse_regex_spec inputPair).map (fun s =>
      ((s.exprPool.getD 0 default).type, (s.exprPool.getD 0 default).op2Type))
      = Except.ok (OperatorType.noOp, OperandTag.nestedExpression) := by
  decide

/-- **C4** (amended).  Only the forward direction survives: in every
parser state parse_regex_spec returns, a pool node whose `op2Type` is
Nothing is a ZeroOrMore node (the tag is only ever written by the
closure path, together with that type). -/
theorem C4_nothing_invariant (lines : List (List Char)) (s : PState)
    (h : parse_regex_spec lines = Except.ok s) :
    ∀ k, k < s.exprPool.length →
      (s.exprPool.getD k default).op2Type = OperandTag.nothingTag →
      (s.exprPool.getD k default).type = OperatorType.zeroOrMore := by
  intro k hk hno
  exact (parse_regex_spec_parseInv h).1 _ (getD_mem _ _ _ hk) hno

/-- Witness for C4: the invariant instantiated on the concrete state of
`$x := a b* c`, whose pool has a Nothing-tagged closure node. -/
theorem C4_witness :
    parse_regex_spec inputStar = Except.ok starState ∧
    (∀ k, k < starState.exprPool.length →
      (starState.exprPool.getD k default).op2Type = OperandTag.nothingTag →
      (starState.exprPool.getD k default).type = OperatorType.zeroOrMore) :=
  ⟨by decide, C4_nothing_invariant inputStar starState (by decide)⟩

/-- **C5.** `$x := a b* c` parses to the claimed shape
And(a, And(ZeroOrMore(b), And(c, NoOp))): the head node is an And with
terminal `a` and nested pool node 1; pool node 1 is an And whose first
operand is the nested ZeroOrMore node 0 over terminal `b`; its second
operand is pool node 2, a NoOp holding terminal `c` — so the closure
binds only to the immediately preceding operand `b`. -/
theorem C5_closure_tree :
    parse_regex_spec inputStar = Except.ok starState ∧
    (starState.nonterms.getD 0 default).headExpr =
      ⟨Slot.term 0, Slot.expr (ExprRef.pool 1), OperandTag.leafOperator,
       OperandTag.nestedExpression, OperatorType.andOp⟩ ∧
    starState.exprPool =
      [⟨Slot.term 2, Slot.null, OperandTag.leafOperator, OperandTag.nothingTag,
        OperatorType.zeroOrMore⟩,
       ⟨Slot.expr (ExprRef.pool 0), Slot.expr (ExprRef.pool 2),
        OperandTag.nestedExpression, OperandTag.nestedExpression, OperatorType.andOp⟩,
       ⟨Slot.term 4, Slot.null, OperandTag.leafOperator, OperandTag.nestedExpression,
        OperatorType.noOp⟩] ∧
    termBytes starState.termPool 0 = [97] ∧
    termBytes starState.termPool 2 = [98] ∧
    termBytes starState.termPool 4 = [99] := by
  decide

/-- **C6.** Each Thompson combinator, run on well-formed disjoint
operand automata in a closed arena, returns a handle with exactly one
Start-typed and one Accepting-typed state among the states reachable
from its start (the `UniqueSA` shape: the endpoints carry the types and
are the only reachable carriers). -/
theorem C6_combinator_unique_start_accept :
    (∀ P P2 i j, build_concat_nfa P i j = Except.ok P2 →
      Closed P → i < P.nfas.length →
      WFHandle P (getNfa P i) → WFHandle P (getNfa P j) →
      Separated P (getNfa P i) (getNfa P j) →
      UniqueSA P2 (getNfa P2 i)) ∧
    (∀ P P2 i j, build_or_nfa P i j = Except.ok P2 →
      Closed P → i < P.nfas.length →
      WFHandle P (getNfa P i) → WFHandle P (getNfa P j) →
      Separated P (getNfa P i) (getNfa P j) →
      UniqueSA P2 (getNfa P2 i)) ∧
    (∀ P i, Closed P → i < P.nfas.length → WFHandle P (getNfa P i) →
      UniqueSA (build_closure_nfa P i) (getNfa (build_closure_nfa P i) i)) := by
  refine ⟨?_, ?_, ?_⟩
  · intro P P2 i j hres hc hi hA hB hsep
    have hij : i ≠ j := by
      intro hco
      rw [build_concat_nfa, if_pos hco] at hres
      cases hres
    obtain ⟨hA1, hA2, hAne, hAts, hAta, hAacc, hwAs, hwAa⟩ := hA
    obtain ⟨hB1, hB2, hBne, hBts, hBta, hBacc, hwBs, hwBa⟩ := hB
    obtain ⟨hget, hsh⟩ := concat_spec hres hij hc hi hA2 hB1
    rw [hget]
    exact concat_uniqueSA hsh hsep hAacc hBacc hAts hBta hAne hBne hwAs hwAa hwBs hwBa
  · intro P P2 i j hres hc hi hA hB hsep
    have hij : i ≠ j := by
      intro hco
      rw [build_or_nfa, if_pos hco] at hres
      cases hres
    obtain ⟨hA1, hA2, hAne, hAts, hAta, hAacc, hwAs, hwAa⟩ := hA
    obtain ⟨hB1, hB2, hBne, hBts, hBta, hBacc, hwBs, hwBa⟩ := hB
    have hAB : (getNfa P i).accepting ≠ (getNfa P j).accepting := by
      intro hco
      exact hsep _ hAacc (hco ▸ hBacc)
    obtain ⟨hget, hsh⟩ := or_spec hres hij hc hi hA1 hA2 hB1 hB2 hAB
    rw [hget]
    exact or_uniqueSA hsh hc hA1 hB1 hsep hAacc hBacc hwAs hwAa hwBs hwBa
  · intro P i hc hi hA
    obtain ⟨hA1, hA2, hAne, hAts, hAta, hAacc, hwAs, hwAa⟩ := hA
    obtain ⟨hget, hsh⟩ := closure_spec hc hi hA1 hA2
    rw [hget]
    exact closure_uniqueSA hsh hc hA1 hwAs hwAa

/-- Witness for C6: all three combinators instantiated on the concrete
two-chain arena `poolAB` (operands `a` at 0-1 and `b` at 2-3). -/
theorem C6_witness :
    build_concat_nfa poolAB 0 1 = Except.ok concatAB ∧
    UniqueSA concatAB (getNfa concatAB 0) ∧
    build_or_nfa poolAB 0 1 = Except.ok orAB ∧
    UniqueSA orAB (getNfa orAB 0) ∧
    UniqueSA (build_closure_nfa poolAB 0) (getNfa (build_closure_nfa poolAB 0) 0) := by
  have hA : WFHandle poolAB (getNfa poolAB 0) :=
    ⟨by decide, by decide, by decide,
      uniqueSA_of_list (L := [0, 1]) (by decide) (by decide) (by decide) (by decide)
        (Reach.single ⟨⟨1, 97⟩, by decide, rfl⟩) (by decide) (by decide)⟩
  have hB : WFHandle poolAB (getNfa poolAB 1) :=
    ⟨by decide, by decide, by decide,
      uniqueSA_of_list (L := [2, 3]) (by decide) (by decide) (by decide) (by decide)
        (Reach.single ⟨⟨3, 98⟩, by decide, rfl⟩) (by decide) (by decide)⟩
  have hsep : Separated poolAB (getNfa poolAB 0) (getNfa poolAB 1) :=
    separated_of_lists (M := [0, 1]) (N := [2, 3]) (by decide) (by decide)
      (by decide) (by decide) (by decide)
  refine ⟨by decide, ?_, by decide, ?_, ?_⟩
  · exact C6_combinator_unique_start_accept.1 poolAB concatAB 0 1 (by decide) (by decide)
      (by decide) hA hB hsep
  · exact C6_combinator_unique_start_accept.2.1 poolAB orAB 0 1 (by decide) (by decide)
      (by decide) hA hB hsep
  · exact C6_combinator_unique_start_accept.2.2 poolAB 0 (by decide) (by decide) hA

/-- **C7.** build_or_nfa accepts exactly the union of the operand
languages (for well-formed disjoint operands in a closed arena), and on
`$x := a | b` the driver's final arena has the OR handle at the fresh
states 8/9, one new Start, one new Accepting, four ε edges and two
symbol edges, and accepts exactly the words `a` (97) and `b` (98). -/
theorem C7_or_union :
    (∀ P P2 i j, build_or_nfa P i j = Except.ok P2 →
      Closed P → i < P.nfas.length →
      WFHandle P (getNfa P i) → WFHandle P (getNfa P j) →
      Separated P (getNfa P i) (getNfa P j) →
      ∀ w, Accepts P2 (getNfa P2 i) w ↔
        (Accepts P (getNfa P i) w ∨ Accepts P (getNfa P j) w)) ∧
    ((parseAndBuild inputAlt 32).map (fun st => st.pool) = some altPool ∧
      getNfa altPool 0 = ⟨8, 9⟩ ∧
      altPool.states.length = 10 ∧
      stype altPool 8 = NFAStateType.start ∧
      stype altPool 9 = NFAStateType.accepting ∧
      (altPool.edges.filter (fun e => e.symbol == 0)).length = 4 ∧
      (altPool.edges.filter (fun e => e.symbol != 0)).length = 2 ∧
      (∀ w, Accepts altPool (getNfa altPool 0) w ↔ (w = [97] ∨ w = [98]))) := by
  constructor
  · intro P P2 i j hres hc hi hA hB hsep
    have hij : i ≠ j := by
      intro hco
      rw [build_or_nfa, if_pos hco] at hres
      cases hres
    obtain ⟨hA1, hA2, hAne, hAts, hAta, hAacc, hwAs, hwAa⟩ := hA
    obtain ⟨hB1, hB2, hBne, hBts, hBta, hBacc, hwBs, hwBa⟩ := hB
    have hAB : (getNfa P i).accepting ≠ (getNfa P j).accepting := by
      intro hco
      exact hsep _ hAacc (hco ▸ hBacc)
    obtain ⟨hget, hsh⟩ := or_spec hres hij hc hi hA1 hA2 hB1 hB2 hAB
    rw [hget]
    exact orShape_lang hsh hc hA1 hB1 hsep hAacc hBacc
  · refine ⟨by decide, by decide, by decide, by decide, by decide, by decide,
      by decide, ?_⟩
    have hres : build_or_nfa poolPreAlt 0 1 = Except.ok altPool := by decide
    have hc : Closed poolPreAlt := by decide
    obtain ⟨hget, hsh⟩ := or_spec hres (by decide) hc (by decide) (by decide)
      (by decide) (by decide) (by decide) (by decide)
    have hchA : contigChain poolPreAlt 0 [97] = true := by decide
    have hchB : contigChain poolPreAlt 4 [98] = true := by decide
    have hAacc : Reach poolPreAlt (getNfa poolPreAlt 0).start
        (getNfa poolPreAlt 0).accepting := Reach.single ⟨⟨1, 97⟩, by decide, rfl⟩
    have hBacc : Reach poolPreAlt (getNfa poolPreAlt 1).start
        (getNfa poolPreAlt 1).accepting := Reach.single ⟨⟨5, 98⟩, by decide, rfl⟩
    have hsep : Separated poolPreAlt (getNfa poolPreAlt 0) (getNfa poolPreAlt 1) :=
      separated_of_lists (M := [0, 1]) (N := [4, 5]) (by decide) (by decide)
        (by decide) (by decide) (by decide)
    have hlang := orShape_lang hsh hc (by decide) (by decide) hsep hAacc hBacc
    intro w
    have h1 : Spell poolPreAlt 0 w 1 ↔ w = [97] :=
      contig_spell [97] 0 hchA (by decide) w
    have h2 : Spell poolPreAlt 4 w 5 ↔ w = [98] :=
      contig_spell [98] 4 hchB (by decide) w
    have hl := hlang w
    constructor
    · intro hsp
      rcases hl.mp hsp with hx | hx
      · exact Or.inl (h1.mp hx)
      · exact Or.inr (h2.mp hx)
    · intro hw
      rcases hw with rfl | rfl
      · exact hl.mpr (Or.inl (h1.mpr rfl))
      · exact hl.mpr (Or.inr (h2.mpr rfl))

/-- Witness for C7: the union law instantiated on the concrete arena
`poolAB`. -/
theorem C7_witness :
    build_or_nfa poolAB 0 1 = Except.ok orAB ∧
    (∀ w, Accepts orAB (getNfa orAB 0) w ↔
      (Accepts poolAB (getNfa poolAB 0) w ∨ Accepts poolAB (getNfa poolAB 1) w)) := by
  have hA : WFHandle poolAB (getNfa poolAB 0) :=
    ⟨by decide, by decide, by decide,
      uniqueSA_of_list (L := [0, 1]) (by decide) (by decide) (by decide) (by decide)
        (Reach.single ⟨⟨1, 97⟩, by decide, rfl⟩) (by decide) (by decide)⟩
  have hB : WFHandle poolAB (getNfa poolAB 1) :=
    ⟨by decide, by decide, by decide,
      uniqueSA_of_list (L := [2, 3]) (by decide) (by decide) (by decide) (by decide)
        (Reach.single ⟨⟨3, 98⟩, by decide, rfl⟩) (by decide) (by decide)⟩
  have hsep : Separated poolAB (getNfa poolAB 0) (getNfa poolAB 1) :=
    separated_of_lists (M := [0, 1]) (N := [2, 3]) (by decide) (by decide)
      (by decide) (by decide) (by decide)
  exact ⟨by decide, C7_or_union.1 poolAB orAB 0 1 (by decide) (by decide) (by decide)
    hA hB hsep⟩

/-- **C8.** On every non-empty decoded terminal, build_terminal_nfa
returns the chain automaton: handle from the fresh start to the last
chain state, Start/Accepting types at the ends, internal types between,
one edge per byte connecting consecutive states and labelled with that
byte, and exactly the `|T|+1` chain states reachable from the start. -/
theorem C8_terminal_chain {P : NFAPool} {bytes : List Nat} (hb : bytes ≠ []) :
    ∃ P2, build_terminal_nfa P bytes = Except.ok (P.nfas.length, P2) ∧
      getNfa P2 P.nfas.length = ⟨P.states.length, P.states.length + bytes.length⟩ ∧
      stype P2 P.states.length = NFAStateType.start ∧
      stype P2 (P.states.length + bytes.length) = NFAStateType.accepting ∧
      (∀ k, k + 1 < bytes.length →
        stype P2 (P.states.length + 1 + k) = NFAStateType.internal) ∧
      (∀ j, j < bytes.length →
        edgesOf P2 (P.states.length + j)
          = [⟨P.states.length + j + 1, bytes.getD j 0⟩]) ∧
      (∀ v, Reach P2 P.states.length v ↔
        (P.states.length ≤ v ∧ v ≤ P.states.length + bytes.length)) := by
  obtain ⟨P2, hrun, hnfa, hts, hta, hint, hchain⟩ := build_terminal_spec hb
  exact ⟨P2, hrun, hnfa, hts, hta, hint,
    fun j hj => contig_edges bytes _ hchain j hj,
    fun v => contig_reach bytes _ hchain v⟩

/-- Witness for C8: the single-byte terminal `a` built on the empty
arena. -/
theorem C8_witness :
    ([97] : List Nat) ≠ [] ∧
    (∃ P2, build_terminal_nfa NFAPool.empty [97] = Except.ok (0, P2) ∧
      getNfa P2 0 = ⟨0, 1⟩ ∧
      stype P2 0 = NFAStateType.start ∧
      stype P2 1 = NFAStateType.accepting ∧
      (∀ k, k + 1 < 1 → stype P2 (1 + k) = NFAStateType.internal) ∧
      (∀ j, j < 1 → edgesOf P2 (0 + j) = [⟨0 + j + 1, [97].getD j 0⟩]) ∧
      (∀ v, Reach P2 0 v ↔ (0 ≤ v ∧ v ≤ 1))) :=
  ⟨by decide, C8_terminal_chain (by decide)⟩

/-- **C9** (counterexample).  A `|` that is the last non-whitespace
content of a line does not produce the DanglingOperator error: the
operand loop consumes it as an operator, the next operand probe sees
end-of-line, and the assert on the last expression's shape aborts
instead (`$x := a |` dies with the assert, at line 1 column 9). -/
theorem C9_trailing_bar_counterexample :
    parse_regex_spec inputTrailingBar
      = Except.error (PError.assertLastExprNoOp 1 9) ∧
    (match parse_regex_spec inputTrailingBar with
      | Except.error (PError.danglingOperator _ _) => false
      | _ => true) = true := by
  decide

/-- **C9** (amended).  When parse_operand itself meets `|` or `*` where
an operand is required, it fails fatally with DanglingOperator at the
position after the skipped intra-line whitespace — as in the mid-line
case `$x := a | | b` (error at 1:10); but a `|` that ends the line is
consumed as an operator and aborts through the last-expression assert
instead. -/
theorem C9_operand_errors :
    (∀ (line : Nat) (nts : List NonTerminal) (tp : List Char) (col : Nat)
      (l : List Char),
      (peekc (skipSpacesNotNl l).2 = '|' ∨ peekc (skipSpacesNotNl l).2 = '*') →
      parse_operand line nts tp col l
        = Except.error (PError.danglingOperator line (col + (skipSpacesNotNl l).1))) ∧
    parse_regex_spec inputMidBar = Except.error (PError.danglingOperator 1 10) ∧
    parse_regex_spec inputTrailingBar
      = Except.error (PError.assertLastExprNoOp 1 9) := by
  exact ⟨parse_operand_dangling, by decide, by decide⟩

/-- **C10.** parse_operand's lookup memcmps only the operand's own byte
count, so any stored name the operand is a prefix of matches: whenever
the operand bytes are a prefix of a recorded name, the length-limited
comparison succeeds — and on `$abc := q` / `$x := $ab`, the reference
`$ab` resolves to index 0 (`$abc`) instead of creating a new entry, so
the table ends with just the two records `$abc`, `$x`. -/
theorem C10_prefix_resolution :
    (∀ (name ob : List Char), ob.length ≤ name.length →
      name.take ob.length = ob → operandNameMatch name ob = true) ∧
    (parse_regex_spec inputPrefixName).map (fun s =>
      (s.nonterms.length, (s.nonterms.getD 1 default).headExpr.op1,
        s.nonterms.map NonTerminal.name))
      = Except.ok (2, Slot.nonterm 0, ["$abc".toList, "$x".toList]) := by
  exact ⟨fun name ob h1 h2 => operandNameMatch_of_take h1 h2, by decide⟩

end AlFarahidi
